import Mathlib

/-!
Verification of the Minesweeper game-state engine (`minefinal.py`).

The engine is embedded shallowly: the module-level `state` dictionary becomes
the structure `GameState`; the row-major Python lists `field`, `hiden` and
`visited` become functions `Nat → Nat → _` indexed as `grid row col`;
`random.sample` becomes an explicit `sample` parameter (theorems hypothesise
the properties `random.sample` guarantees: the sample is drawn from the given
tile list, has no duplicates, and has the requested length); the record file
writes become an explicit `GameRec` output of the mouse handler; a Python
`IndexError` (out-of-range list subscript) becomes the `none` result of
`handle_mouse`.  Tile positions travelling through lists (`mine`,
`available`, the flood-fill work queue) are `(column, row)` pairs, exactly as
in the source.
-/

namespace Minesweeper

/-- Cell values: the Python code stores the strings `" "`, `"x"`, `"f"` and
`str(count)` in its grids; we give them a small inductive type. -/
inductive Cell where
  | blank : Cell
  | mineC : Cell
  | flagC : Cell
  | digit : Nat → Cell
deriving DecidableEq, Repr

/-- A row-major grid of cells, `g row col`. -/
abbrev Grid := Nat → Nat → Cell

/-- Point update of a grid at `(row, col)`, mirroring `g[r][c] = v`. -/
def update2 (g : Grid) (r c : Nat) (v : Cell) : Grid :=
  fun r' c' => if r' = r ∧ c' = c then v else g r' c'

/-- Point update of the visited matrix, mirroring `visited[r][c] = "v"`. -/
def setVisited (v : Nat → Nat → Bool) (r c : Nat) : Nat → Nat → Bool :=
  fun r' c' => if r' = r ∧ c' = c then true else v r' c'

/-- The mutable module-level `state` dictionary of `minefinal.py`. -/
structure GameState where
  field : Grid
  hiden : Grid
  mine : List (Nat × Nat)
  available : List (Nat × Nat)
  visited : Nat → Nat → Bool
  tick : Nat
  turn : Nat
  flag : Int
  pressed : Nat
  lose : Bool
  win : Bool
  time : Nat

/-- The initial `state` dictionary (lines 4-16 of the source): empty grids,
all counters zero, no mines. -/
def initState : GameState where
  field := fun _ _ => Cell.blank
  hiden := fun _ _ => Cell.blank
  mine := []
  available := []
  visited := fun _ _ => false
  tick := 0
  turn := 0
  flag := 0
  pressed := 0
  lose := false
  win := false
  time := 0

/-- The half-open interval `[a, b)` as a list, mirroring Python
`range(max(0, a), b)` (note `Nat` subtraction already clips at zero). -/
def natRange2 (a b : Nat) : List Nat :=
  List.range' a (b - a)

/-- The clipped Moore neighbourhood box around column `x`, row `y`, as the
list of `(row, col)` index pairs in Python iteration order:
`for i in range(max(0, y-1), min(H, y+2)): for j in range(max(0, x-1), min(W, x+2))`.
This same double loop appears verbatim in both `addnummine` and `floodfill`.
Note the box contains `(y, x)` itself. -/
def nbrList (W H x y : Nat) : List (Nat × Nat) :=
  (natRange2 (y - 1) (min H (y + 2))).flatMap
    (fun i => (natRange2 (x - 1) (min W (x + 2))).map (fun j => (i, j)))

/-- The number of `"x"` cells in the clipped neighbourhood box of
column `x`, row `y` — the `count` computed by `addnummine`. -/
def countNbrMines (W H : Nat) (g : Grid) (x y : Nat) : Nat :=
  ((nbrList W H x y).filter (fun p => g p.1 p.2 = Cell.mineC)).length

/-- All grid indices `(row, col)` in Python's `enumerate` order
(rows outer, columns inner), as iterated by `addnummine`. -/
def allIdx (W H : Nat) : List (Nat × Nat) :=
  (List.range H).flatMap (fun r => (List.range W).map (fun c => (r, c)))

/-- All tiles as `(col, row)` pairs in the order `reset` builds
`state['available']` (rows outer, columns inner). -/
def allTilesColRow (W H : Nat) : List (Nat × Nat) :=
  (List.range H).flatMap (fun row => (List.range W).map (fun col => (col, row)))

/-- One iteration of `addnummine` at cell `p = (row, col)`: skip the cell if
it currently holds `"x"` (`continue`), otherwise overwrite it with
`str(count)` computed from the current (partially overwritten) grid. -/
def addnumStep (W H : Nat) (f : Grid) (p : Nat × Nat) : Grid :=
  if f p.1 p.2 = Cell.mineC then f
  else update2 f p.1 p.2 (Cell.digit (countNbrMines W H f p.2 p.1))

/-- `addnummine(field)`: walk the grid in row-major order and, skipping mine
cells, overwrite each cell in place with `str(count)` — exactly the in-place
mutation of the source. -/
def addnummine (W H : Nat) (g : Grid) : Grid :=
  (allIdx W H).foldl (addnumStep W H) g

/-- `place_mines(fields, tiles, num)`: `state["mine"] = random.sample(tiles, num)`
then mark each sampled `(col, row)` position as `"x"` in the field.  The
`random.sample` result is passed in as `sample`. -/
def place_mines (sample : List (Nat × Nat)) (s : GameState) : GameState :=
  { s with mine := sample,
           field := sample.foldl (fun f p => update2 f p.2 p.1 Cell.mineC) s.field }

/-- `show_remainingmine(hiden, field)`: copy the field value of every tile in
`state["mine"]` into the overlay. -/
def show_remainingmine (s : GameState) : Grid :=
  s.mine.foldl (fun h p => update2 h p.2 p.1 (s.field p.2 p.1)) s.hiden

/-- The inner double loop of one `floodfill` iteration: scan the clipped
neighbourhood box of the current queue element; skip visited cells; mark each
unvisited cell visited, enqueue it (as `(col, row)`) if its field value is
`"0"`, reveal it in the overlay and increment `pressed`.  Returns the updated
state and the list of newly enqueued positions in encounter order. -/
def ffExpand (s : GameState) : List (Nat × Nat) → GameState × List (Nat × Nat)
  | [] => (s, [])
  | p :: rest =>
    if s.visited p.1 p.2 then ffExpand s rest
    else
      let s1 : GameState :=
        { s with visited := setVisited s.visited p.1 p.2,
                 hiden := update2 s.hiden p.1 p.2 (s.field p.1 p.2),
                 pressed := s.pressed + 1 }
      let r := ffExpand s1 rest
      (r.1, (if s.field p.1 p.2 = Cell.digit 0 then [(p.2, p.1)] else []) ++ r.2)

/-- The `for sec in handling` loop of `floodfill`, processed as a FIFO queue
(Python iterates the growing list from the front while appending at the back).
Each iteration marks the head visited; if its field value is `"0"` it is
revealed and its neighbourhood expanded, otherwise the loop `break`s, which
abandons the rest of the queue.  The loop is fuelled; `ffLoop_main` below
shows that `|queue| + #unvisited` fuel — at most the `W*H + 1` supplied by
`floodfill` — always reaches the empty queue, so the fuelled function agrees
with Python's unbounded loop. -/
def ffLoop (W H : Nat) : Nat → List (Nat × Nat) → GameState → GameState
  | 0, _, s => s
  | _ + 1, [], s => s
  | fuel + 1, sec :: rest, s =>
    let s1 : GameState := { s with visited := setVisited s.visited sec.2 sec.1 }
    if s1.field sec.2 sec.1 = Cell.digit 0 then
      let s2 : GameState :=
        { s1 with hiden := update2 s1.hiden sec.2 sec.1 (s1.field sec.2 sec.1) }
      let e := ffExpand s2 (nbrList W H sec.1 sec.2)
      ffLoop W H fuel (rest ++ e.2) e.1
    else s1

/-- `floodfill(posx, posy)`: run the queue loop seeded with the start tile. -/
def floodfill (W H x y : Nat) (s : GameState) : GameState :=
  ffLoop W H (W * H + 1) [(x, y)] s

/-- `time_tick(time_unit)`: advance the clock unless the game has ended. -/
def time_tick (time_unit : Nat) (s : GameState) : GameState :=
  if s.lose = true ∨ s.win = true then s else { s with tick := s.tick + time_unit }

/-- `reset()`: zero the counters, capture the start timestamp, clear the
visited matrix and both grids, and rebuild `available` as all tiles in
`(col, row)` order.  `state["mine"]` is *not* reset (exactly as in the
source; the menu always places mines right after resetting). -/
def reset (W H now : Nat) (s : GameState) : GameState :=
  { s with tick := 0, pressed := 0, lose := false, win := false, time := now,
           turn := 0, flag := 0,
           visited := fun _ _ => false,
           field := fun _ _ => Cell.blank,
           hiden := fun _ _ => Cell.blank,
           available := allTilesColRow W H }

/-- Menu choice `"1"` (lines 256-260): `reset()`, `place_mines(field,
available, MINENUM)`, `addnummine(field)`.  `sample` stands for the
`random.sample(available, MINENUM)` drawn inside `place_mines`. -/
def new_game (W H now : Nat) (sample : List (Nat × Nat)) (s : GameState) : GameState :=
  let s1 := place_mines sample (reset W H now s)
  { s1 with field := addnummine W H s1.field }

/-- Mouse buttons delivered by the input library. -/
inductive Button where
  | left : Button
  | middle : Button
  | right : Button
deriving DecidableEq, Repr

/-- A line appended to `sweeper_record.txt`: the values the handler writes
(timestamp, mines-left for a loss, clock ticks, turn count). -/
inductive GameRec where
  | lostRec (time : Nat) (minesLeft : Int) (tick : Nat) (turn : Nat) : GameRec
  | wonRec (time : Nat) (tick : Nat) (turn : Nat) : GameRec
deriving DecidableEq, Repr

/-- `handle_mouse(x, y, butt, mod)`.  Pixel coordinates are mapped to the
tile by `int(y/40)`, `int(x/40)`.  Python subscripts `hiden[tile_row][tile_col]`
without a bounds check; an out-of-range row or column raises `IndexError`,
modelled as the result `none`.  `regen` stands for the `random.sample` drawn
when the first reveal hits a mine and the board is regenerated.  The second
component of the result is the record line appended to the score file, if
any. -/
def handle_mouse (W H M : Nat) (regen : List (Nat × Nat)) (xm ym : Nat)
    (butt : Button) (s : GameState) : Option (GameState × Option GameRec) :=
  let tileRow := ym / 40
  let tileCol := xm / 40
  if s.lose = true ∨ s.win = true then some (s, none)
  else
    match butt with
    | .middle => some (s, none)
    | .left =>
      if tileRow < H ∧ tileCol < W then
        let s1 :=
          if s.hiden tileRow tileCol = Cell.blank then
            floodfill W H tileCol tileRow
              { s with pressed := s.pressed + 1, turn := s.turn + 1,
                       hiden := update2 s.hiden tileRow tileCol (s.field tileRow tileCol) }
          else s
        if s1.hiden tileRow tileCol = Cell.mineC then
          if s1.pressed = 1 then
            let s2 : GameState :=
              { s1 with field := fun _ _ => Cell.blank,
                        available := s1.available.erase (tileCol, tileRow) }
            let s3 := place_mines regen s2
            let s4 : GameState := { s3 with field := addnummine W H s3.field }
            let s5 : GameState :=
              { s4 with hiden := update2 s4.hiden tileRow tileCol (s4.field tileRow tileCol) }
            some (floodfill W H tileCol tileRow s5, none)
          else
            let s2 : GameState := { s1 with lose := true }
            let s3 : GameState := { s2 with hiden := show_remainingmine s2 }
            some (s3, some (.lostRec s3.time ((M : Int) - s3.flag) s3.tick s3.turn))
        else
          if s1.pressed = W * H - M then
            some ({ s1 with win := true }, some (.wonRec s1.time s1.tick s1.turn))
          else some (s1, none)
      else none
    | .right =>
      if tileRow < H ∧ tileCol < W then
        if s.hiden tileRow tileCol = Cell.blank then
          some ({ s with hiden := update2 s.hiden tileRow tileCol Cell.flagC,
                         flag := s.flag +
                           (if s.field tileRow tileCol = Cell.mineC then 1 else 0) },
                none)
        else if s.hiden tileRow tileCol = Cell.flagC then
          some ({ s with hiden := update2 s.hiden tileRow tileCol Cell.blank,
                         flag := s.flag -
                           (if s.field tileRow tileCol = Cell.mineC then 1 else 0) },
                none)
        else some (s, none)
      else none

/-! ### Derived state and specification-level definitions -/

/-- The state after the inner loop of `floodfill` marks and reveals one
unvisited neighbour cell `p = (row, col)` and increments `pressed`. -/
def ffMarkCell (s : GameState) (p : Nat × Nat) : GameState :=
  { s with visited := setVisited s.visited p.1 p.2,
           hiden := update2 s.hiden p.1 p.2 (s.field p.1 p.2),
           pressed := s.pressed + 1 }

/-- The state after the outer loop of `floodfill` marks the dequeued element
`sec = (col, row)` visited and reveals it. -/
def ffHead (s : GameState) (sec : Nat × Nat) : GameState :=
  { s with visited := setVisited s.visited sec.2 sec.1,
           hiden := update2 s.hiden sec.2 sec.1 (s.field sec.2 sec.1) }

/-- The components of the state that `floodfill` never writes. -/
def MetaEq (a b : GameState) : Prop :=
  a.field = b.field ∧ a.mine = b.mine ∧ a.available = b.available ∧
  a.lose = b.lose ∧ a.win = b.win ∧ a.turn = b.turn ∧ a.flag = b.flag ∧
  a.tick = b.tick ∧ a.time = b.time

/-- The reachable 3×3 state after the regeneration first click: mine sample
`[(0,0)]`, first click at `(0,0)`, regeneration sample `[(2,2)]`.  All eight
safe tiles are revealed (`pressed = 8 = W*H − M`) but `win` is still
`false`. -/
def regenTrace : GameState :=
  ((handle_mouse 3 3 1 [(2, 2)] 0 0 Button.left (new_game 3 3 0 [(0, 0)] initState)).getD
    (initState, none)).1

/-- All grid tiles as `(col, row)` pairs, as a finite set. -/
def gridF (W H : Nat) : Finset (Nat × Nat) :=
  Finset.range W ×ˢ Finset.range H

/-- A well-formed ground-truth grid: every in-grid non-mine cell holds the
count of `"x"` cells in its clipped neighbourhood box. -/
abbrev wfField (W H : Nat) (f : Grid) : Prop :=
  ∀ r, r < H → ∀ c, c < W → f r c ≠ Cell.mineC →
    f r c = Cell.digit (countNbrMines W H f c r)

/-- The reachable 3×3 state with the single mine at the centre `(1,1)` after
a first reveal at corner `(0,0)`: one tile open, game still running. -/
def centreMineTrace : GameState :=
  ((handle_mouse 3 3 1 [] 0 0 Button.left (new_game 3 3 0 [(1, 1)] initState)).getD
    (initState, none)).1

/-- A `(col, row)` position lies inside the grid. -/
abbrev inGridP (W H : Nat) (p : Nat × Nat) : Prop :=
  p.1 < W ∧ p.2 < H

/-- `t` lies in the clipped neighbourhood box of `p` (both `(col, row)`;
this is exactly the index set the source's double loop scans around `p`,
which includes `p` itself). -/
abbrev adjB (W H : Nat) (p t : Nat × Nat) : Prop :=
  (t.2, t.1) ∈ nbrList W H p.1 p.2

/-- One flood step: `t` is in the box of `p` and holds ground-truth `"0"`. -/
def zstep (W H : Nat) (f : Grid) (p t : Nat × Nat) : Prop :=
  adjB W H p t ∧ f t.2 t.1 = Cell.digit 0

/-- `t` is connected to `s0` through a chain of zero-valued tiles. -/
def zreach (W H : Nat) (f : Grid) (s0 t : Nat × Nat) : Prop :=
  Relation.ReflTransGen (zstep W H f) s0 t

/-- `t` lies in the maximal connected zero-region of the seed, or is a
non-zero tile bordering that region. -/
def inRB (W H : Nat) (f : Grid) (s0 t : Nat × Nat) : Prop :=
  zreach W H f s0 t ∨
  ∃ z, zreach W H f s0 z ∧ adjB W H z t ∧ f t.2 t.1 ≠ Cell.digit 0

/-- How many cells of a `(col, row)` visited matrix are marked. -/
def visCntM (W H : Nat) (v : Nat → Nat → Bool) : Nat :=
  ((gridF W H).filter (fun p => v p.2 p.1 = true)).card

/-- How many grid cells are still unvisited. -/
def unvisCntM (W H : Nat) (v : Nat → Nat → Bool) : Nat :=
  ((gridF W H).filter (fun p => v p.2 p.1 = false)).card

/-- The invariant of the flood-fill queue loop, for a run whose visited
matrix started all-false: the field is fixed at `f`; every queue element is
an in-grid zero tile reachable from the seed; every visited cell is in the
region-or-border set and revealed; unvisited cells keep their original
overlay `h0`; and every visited zero tile is either still queued or has its
whole neighbourhood box visited. -/
structure FFInv (W H : Nat) (f : Grid) (seed : Nat × Nat) (h0 : Grid)
    (q : List (Nat × Nat)) (s : GameState) : Prop where
  fieldEq : s.field = f
  queue : ∀ p ∈ q, inGridP W H p ∧ f p.2 p.1 = Cell.digit 0 ∧ zreach W H f seed p
  vis : ∀ r c, s.visited r c = true → inGridP W H (c, r) ∧ inRB W H f seed (c, r)
  visHiden : ∀ r c, s.visited r c = true → s.hiden r c = f r c
  unvisHiden : ∀ r c, s.visited r c = false → s.hiden r c = h0 r c
  closure : ∀ r c, s.visited r c = true → f r c = Cell.digit 0 →
    (c, r) ∈ q ∨ ∀ p ∈ nbrList W H c r, s.visited p.1 p.2 = true

/-- A reachable fresh 3×3 board with one mine at `(2,2)`: tile `(0,0)` holds
ground truth `"0"` and nothing is revealed or visited yet. -/
def freshZeroState : GameState := new_game 3 3 0 [(2, 2)] initState

/-- A reachable fresh 3×3 board, mine at `(2,2)`, with a flag placed on the
border tile `(1,1)` (right click at pixel `(40,40)`); nothing is visited. -/
def flagTrace : GameState :=
  ((handle_mouse 3 3 1 [] 40 40 Button.right (new_game 3 3 0 [(2, 2)] initState)).getD
    (initState, none)).1

/-! ### Basic grid lemmas -/

theorem update2_self (g : Grid) (r c : Nat) (v : Cell) : update2 g r c v r c = v := by
  simp [update2]

theorem update2_ne (g : Grid) (r c : Nat) (v : Cell) {r' c' : Nat}
    (h : ¬(r' = r ∧ c' = c)) : update2 g r c v r' c' = g r' c' := by
  simp [update2, h]

theorem setVisited_self (v : Nat → Nat → Bool) (r c : Nat) : setVisited v r c r c = true := by
  simp [setVisited]

theorem setVisited_ne (v : Nat → Nat → Bool) (r c : Nat) {r' c' : Nat}
    (h : ¬(r' = r ∧ c' = c)) : setVisited v r c r' c' = v r' c' := by
  simp [setVisited, h]

theorem setVisited_mono (v : Nat → Nat → Bool) (r c : Nat) {r' c' : Nat}
    (h : v r' c' = true) : setVisited v r c r' c' = true := by
  by_cases hrc : r' = r ∧ c' = c
  · simp [setVisited, hrc]
  · rw [setVisited_ne v r c hrc]; exact h

/-- A fold of point updates whose written value depends only on the position:
the final value at `(r, c)` is the written value if `(c, r)` occurs in the
list and the original value otherwise. -/
theorem foldl_update2_pos (F : Grid) :
    ∀ (l : List (Nat × Nat)) (g : Grid) (r c : Nat),
      (l.foldl (fun h p => update2 h p.2 p.1 (F p.2 p.1)) g) r c =
        if (c, r) ∈ l then F r c else g r c := by
  intro l
  induction l with
  | nil => intro g r c; simp
  | cons p t ih =>
    intro g r c
    rw [List.foldl_cons, ih]
    by_cases ht : (c, r) ∈ t
    · simp [ht]
    · by_cases hp : (c, r) = p
      · subst hp
        simp [ht, update2_self]
      · have hmem : ¬ (c, r) ∈ p :: t := by
          simp [List.mem_cons, hp, ht]
        simp only [ht, if_false, hmem]
        apply update2_ne
        intro hcon
        exact hp (by cases p with | mk a b => simp_all)

/-! ### Membership lemmas for the index lists -/

theorem mem_natRange2 {a b n : Nat} : n ∈ natRange2 a b ↔ a ≤ n ∧ n < b := by
  simp only [natRange2, List.mem_range'_1]
  omega

theorem mem_nbrList {W H x y i j : Nat} :
    (i, j) ∈ nbrList W H x y ↔
      (y - 1 ≤ i ∧ i < min H (y + 2)) ∧ (x - 1 ≤ j ∧ j < min W (x + 2)) := by
  simp only [nbrList, List.mem_flatMap, List.mem_map, Prod.mk.injEq]
  constructor
  · rintro ⟨i', hi', j', hj', hij, hji⟩
    rw [mem_natRange2] at hi' hj'
    exact ⟨hij ▸ hi', hji ▸ hj'⟩
  · rintro ⟨hi, hj⟩
    exact ⟨i, mem_natRange2.mpr hi, j, mem_natRange2.mpr hj, rfl, rfl⟩

theorem mem_allTilesColRow {W H c r : Nat} :
    (c, r) ∈ allTilesColRow W H ↔ c < W ∧ r < H := by
  simp only [allTilesColRow, List.mem_flatMap, List.mem_map, List.mem_range, Prod.mk.injEq]
  constructor
  · rintro ⟨row, hrow, col, hcol, hc, hr⟩
    exact ⟨hc ▸ hcol, hr ▸ hrow⟩
  · rintro ⟨hc, hr⟩
    exact ⟨r, hr, c, hc, rfl, rfl⟩

theorem mem_allIdx {W H r c : Nat} : (r, c) ∈ allIdx W H ↔ r < H ∧ c < W := by
  simp only [allIdx, List.mem_flatMap, List.mem_map, List.mem_range, Prod.mk.injEq]
  constructor
  · rintro ⟨r', hr', c', hc', hr, hc⟩
    exact ⟨hr ▸ hr', hc ▸ hc'⟩
  · rintro ⟨hr, hc⟩
    exact ⟨r, hr, c, hc, rfl, rfl⟩

theorem allIdx_nodup (W H : Nat) : (allIdx W H).Nodup := by
  induction H with
  | zero => simp [allIdx]
  | succ H ih =>
    have hsplit : allIdx W (H + 1) =
        allIdx W H ++ (List.range W).map (fun c => (H, c)) := by
      simp [allIdx, List.range_succ]
    rw [hsplit]
    apply List.Nodup.append ih
    · exact (List.nodup_range W).map (fun a b h => (Prod.mk.injEq _ _ _ _ ▸ h).2)
    · intro p hp hp'
      obtain ⟨c', _, hc⟩ := List.mem_map.mp hp'
      have h1 : p.1 < H := by
        have := mem_allIdx (W := W) (H := H) (r := p.1) (c := p.2)
        exact (this.mp (by cases p; exact hp)).1
      have h2 : p.1 = H := by cases hc; rfl
      omega

/-! ### `place_mines`, `show_remainingmine`, `addnummine` lemmas -/

theorem place_mines_field (sample : List (Nat × Nat)) (s : GameState) (r c : Nat) :
    (place_mines sample s).field r c =
      if (c, r) ∈ sample then Cell.mineC else s.field r c :=
  foldl_update2_pos (fun _ _ => Cell.mineC) sample s.field r c

theorem show_remainingmine_eq (s : GameState) (r c : Nat) :
    show_remainingmine s r c =
      if (c, r) ∈ s.mine then s.field r c else s.hiden r c :=
  foldl_update2_pos (fun r' c' => s.field r' c') s.mine s.hiden r c

theorem addnumStep_mine_iff (W H : Nat) (f : Grid) (p : Nat × Nat) (r c : Nat) :
    addnumStep W H f p r c = Cell.mineC ↔ f r c = Cell.mineC := by
  unfold addnumStep
  by_cases hm : f p.1 p.2 = Cell.mineC
  · simp [hm]
  · simp only [hm, if_false]
    by_cases hrc : r = p.1 ∧ c = p.2
    · obtain ⟨h1, h2⟩ := hrc
      subst h1; subst h2
      rw [update2_self]
      simp [hm]
    · rw [update2_ne _ _ _ _ hrc]

theorem countNbrMines_congr (W H : Nat) {g g' : Grid}
    (h : ∀ r c, g r c = Cell.mineC ↔ g' r c = Cell.mineC) (x y : Nat) :
    countNbrMines W H g x y = countNbrMines W H g' x y := by
  unfold countNbrMines
  congr 1
  apply List.filter_congr
  intro p _
  exact decide_eq_decide.mpr (h p.1 p.2)

theorem addfold_mine_iff (W H : Nat) :
    ∀ (l : List (Nat × Nat)) (g : Grid) (r c : Nat),
      (l.foldl (addnumStep W H) g) r c = Cell.mineC ↔ g r c = Cell.mineC := by
  intro l
  induction l with
  | nil => intro g r c; simp
  | cons p t ih =>
    intro g r c
    rw [List.foldl_cons, ih]
    exact addnumStep_mine_iff W H g p r c

theorem addfold_untouched (W H : Nat) :
    ∀ (l : List (Nat × Nat)) (g : Grid) (r c : Nat), (r, c) ∉ l →
      (l.foldl (addnumStep W H) g) r c = g r c := by
  intro l
  induction l with
  | nil => intro g r c _; rfl
  | cons p t ih =>
    intro g r c hmem
    rw [List.foldl_cons, ih _ _ _ (fun h => hmem (List.mem_cons_of_mem p h))]
    unfold addnumStep
    by_cases hm : g p.1 p.2 = Cell.mineC
    · simp [hm]
    · simp only [hm, if_false]
      apply update2_ne
      intro hrc
      exact hmem (by rw [List.mem_cons]; left; cases p with | mk a b => simp_all)

theorem addfold_value (W H : Nat) :
    ∀ (l : List (Nat × Nat)) (g : Grid) (r c : Nat), l.Nodup → (r, c) ∈ l →
      (l.foldl (addnumStep W H) g) r c =
        if g r c = Cell.mineC then Cell.mineC
        else Cell.digit (countNbrMines W H g c r) := by
  intro l
  induction l with
  | nil => intro g r c _ hmem; exact absurd hmem (List.not_mem_nil _)
  | cons p t ih =>
    intro g r c hnd hmem
    rw [List.foldl_cons]
    rcases List.mem_cons.mp hmem with hp | ht
    · have hpt : (r, c) ∉ t := by
        rw [← hp] at hnd; exact (List.nodup_cons.mp hnd).1
      rw [addfold_untouched W H t _ _ _ hpt]
      unfold addnumStep
      rw [← hp]
      by_cases hm : g r c = Cell.mineC
      · simp [hm]
      · simp only [hm, if_false]
        rw [update2_self]
    · rw [ih _ _ _ (List.nodup_cons.mp hnd).2 ht]
      have hiff : ∀ r' c', addnumStep W H g p r' c' = Cell.mineC ↔ g r' c' = Cell.mineC :=
        fun r' c' => addnumStep_mine_iff W H g p r' c'
      by_cases hm : g r c = Cell.mineC
      · simp [hm, (hiff r c).mpr hm]
      · have hm' : ¬ addnumStep W H g p r c = Cell.mineC := fun h => hm ((hiff r c).mp h)
        simp only [hm, hm', if_false]
        rw [countNbrMines_congr W H hiff]

theorem addnummine_mine_iff (W H : Nat) (g : Grid) (r c : Nat) :
    addnummine W H g r c = Cell.mineC ↔ g r c = Cell.mineC :=
  addfold_mine_iff W H (allIdx W H) g r c

theorem addnummine_value (W H : Nat) (g : Grid) {r c : Nat} (hr : r < H) (hc : c < W) :
    addnummine W H g r c =
      if g r c = Cell.mineC then Cell.mineC
      else Cell.digit (countNbrMines W H g c r) :=
  addfold_value W H (allIdx W H) g r c (allIdx_nodup W H) (mem_allIdx.mpr ⟨hr, hc⟩)

theorem countNbrMines_addnummine (W H : Nat) (g : Grid) (x y : Nat) :
    countNbrMines W H (addnummine W H g) x y = countNbrMines W H g x y :=
  countNbrMines_congr W H (fun r c => addnummine_mine_iff W H g r c) x y

/-! ### Flood-fill unfolding lemmas -/

theorem ffExpand_nil (s : GameState) : ffExpand s [] = (s, []) := rfl

theorem ffExpand_cons (s : GameState) (p : Nat × Nat) (t : List (Nat × Nat)) :
    ffExpand s (p :: t) =
      if s.visited p.1 p.2 = true then ffExpand s t
      else ((ffExpand (ffMarkCell s p) t).1,
            (if s.field p.1 p.2 = Cell.digit 0 then [(p.2, p.1)] else []) ++
              (ffExpand (ffMarkCell s p) t).2) := rfl

theorem ffLoop_zero (W H : Nat) (q : List (Nat × Nat)) (s : GameState) :
    ffLoop W H 0 q s = s := rfl

theorem ffLoop_nil (W H fuel : Nat) (s : GameState) :
    ffLoop W H (fuel + 1) [] s = s := rfl

theorem ffLoop_cons (W H fuel : Nat) (sec : Nat × Nat) (rest : List (Nat × Nat))
    (s : GameState) :
    ffLoop W H (fuel + 1) (sec :: rest) s =
      if s.field sec.2 sec.1 = Cell.digit 0 then
        ffLoop W H fuel (rest ++ (ffExpand (ffHead s sec) (nbrList W H sec.1 sec.2)).2)
          (ffExpand (ffHead s sec) (nbrList W H sec.1 sec.2)).1
      else { s with visited := setVisited s.visited sec.2 sec.1 } := rfl

/-! ### Flood-fill preservation lemmas -/

theorem MetaEq.refl (a : GameState) : MetaEq a a :=
  ⟨rfl, rfl, rfl, rfl, rfl, rfl, rfl, rfl, rfl⟩

theorem MetaEq.trans {a b c : GameState} (h1 : MetaEq a b) (h2 : MetaEq b c) : MetaEq a c := by
  obtain ⟨a1, a2, a3, a4, a5, a6, a7, a8, a9⟩ := h1
  obtain ⟨b1, b2, b3, b4, b5, b6, b7, b8, b9⟩ := h2
  exact ⟨a1.trans b1, a2.trans b2, a3.trans b3, a4.trans b4, a5.trans b5,
         a6.trans b6, a7.trans b7, a8.trans b8, a9.trans b9⟩

theorem MetaEq.markCell (s : GameState) (p : Nat × Nat) : MetaEq (ffMarkCell s p) s :=
  ⟨rfl, rfl, rfl, rfl, rfl, rfl, rfl, rfl, rfl⟩

theorem MetaEq.head (s : GameState) (sec : Nat × Nat) : MetaEq (ffHead s sec) s :=
  ⟨rfl, rfl, rfl, rfl, rfl, rfl, rfl, rfl, rfl⟩

theorem ffExpand_meta : ∀ (l : List (Nat × Nat)) (s : GameState),
    MetaEq (ffExpand s l).1 s := by
  intro l
  induction l with
  | nil => intro s; exact MetaEq.refl s
  | cons p t ih =>
    intro s
    rw [ffExpand_cons]
    by_cases hv : s.visited p.1 p.2 = true
    · rw [if_pos hv]; exact ih s
    · rw [if_neg hv]
      exact MetaEq.trans (ih (ffMarkCell s p)) (MetaEq.markCell s p)

theorem ffLoop_meta (W H : Nat) : ∀ (fuel : Nat) (q : List (Nat × Nat)) (s : GameState),
    MetaEq (ffLoop W H fuel q s) s := by
  intro fuel
  induction fuel with
  | zero => intro q s; exact MetaEq.refl s
  | succ fuel ih =>
    intro q s
    cases q with
    | nil => exact MetaEq.refl s
    | cons sec rest =>
      rw [ffLoop_cons]
      by_cases h : s.field sec.2 sec.1 = Cell.digit 0
      · rw [if_pos h]
        exact MetaEq.trans (ih _ _)
          (MetaEq.trans (ffExpand_meta _ _) (MetaEq.head s sec))
      · rw [if_neg h]
        exact ⟨rfl, rfl, rfl, rfl, rfl, rfl, rfl, rfl, rfl⟩

theorem floodfill_meta (W H x y : Nat) (s : GameState) :
    MetaEq (floodfill W H x y s) s :=
  ffLoop_meta W H (W * H + 1) [(x, y)] s

theorem ffExpand_hiden_or : ∀ (l : List (Nat × Nat)) (s : GameState) (r c : Nat),
    (ffExpand s l).1.hiden r c = s.hiden r c ∨
    (ffExpand s l).1.hiden r c = s.field r c := by
  intro l
  induction l with
  | nil => intro s r c; exact Or.inl rfl
  | cons p t ih =>
    intro s r c
    rw [ffExpand_cons]
    by_cases hv : s.visited p.1 p.2 = true
    · rw [if_pos hv]; exact ih s r c
    · rw [if_neg hv]
      rcases ih (ffMarkCell s p) r c with h | h
      · rw [h]
        by_cases hrc : r = p.1 ∧ c = p.2
        · right
          show update2 s.hiden p.1 p.2 (s.field p.1 p.2) r c = s.field r c
          rw [hrc.1, hrc.2, update2_self]
        · left
          exact update2_ne _ _ _ _ hrc
      · right; exact h

theorem ffLoop_hiden_or (W H : Nat) : ∀ (fuel : Nat) (q : List (Nat × Nat)) (s : GameState)
    (r c : Nat),
    (ffLoop W H fuel q s).hiden r c = s.hiden r c ∨
    (ffLoop W H fuel q s).hiden r c = s.field r c := by
  intro fuel
  induction fuel with
  | zero => intro q s r c; exact Or.inl rfl
  | succ fuel ih =>
    intro q s r c
    cases q with
    | nil => exact Or.inl rfl
    | cons sec rest =>
      rw [ffLoop_cons]
      by_cases h : s.field sec.2 sec.1 = Cell.digit 0
      · rw [if_pos h]
        rcases ih (rest ++ (ffExpand (ffHead s sec) (nbrList W H sec.1 sec.2)).2)
            (ffExpand (ffHead s sec) (nbrList W H sec.1 sec.2)).1 r c with h1 | h1
        · rw [h1]
          rcases ffExpand_hiden_or (nbrList W H sec.1 sec.2) (ffHead s sec) r c with h2 | h2
          · rw [h2]
            by_cases hrc : r = sec.2 ∧ c = sec.1
            · right
              show update2 s.hiden sec.2 sec.1 (s.field sec.2 sec.1) r c = s.field r c
              rw [hrc.1, hrc.2, update2_self]
            · left
              exact update2_ne _ _ _ _ hrc
          · right; exact h2
        · right
          rw [h1, (ffExpand_meta _ _).1]
          rfl
      · rw [if_neg h]
        exact Or.inl rfl

theorem floodfill_hiden_or (W H x y : Nat) (s : GameState) (r c : Nat) :
    (floodfill W H x y s).hiden r c = s.hiden r c ∨
    (floodfill W H x y s).hiden r c = s.field r c :=
  ffLoop_hiden_or W H (W * H + 1) [(x, y)] s r c

/-- When the start tile does not hold `"0"`, `floodfill` only marks it
visited and `break`s out of the loop immediately. -/
theorem floodfill_break (W H x y : Nat) (s : GameState)
    (h : s.field y x ≠ Cell.digit 0) :
    floodfill W H x y s = { s with visited := setVisited s.visited y x } := by
  show ffLoop W H (W * H + 1) [(x, y)] s = _
  rw [ffLoop_cons, if_neg h]

/-! ### Handler unfolding lemmas -/

theorem handle_mouse_terminal (W H M : Nat) (regen : List (Nat × Nat)) (xm ym : Nat)
    (butt : Button) (s : GameState) (h : s.lose = true ∨ s.win = true) :
    handle_mouse W H M regen xm ym butt s = some (s, none) := by
  simp only [handle_mouse]
  rw [if_pos h]

theorem handle_mouse_middle (W H M : Nat) (regen : List (Nat × Nat)) (xm ym : Nat)
    (s : GameState) (h : ¬(s.lose = true ∨ s.win = true)) :
    handle_mouse W H M regen xm ym Button.middle s = some (s, none) := by
  simp only [handle_mouse]
  rw [if_neg h]

/-! ### Claim theorems: C6 -/

/-- C6 (amended): a mouse click whose pixel coordinates map to a tile inside
the grid (`ym/40 < H` and `xm/40 < W`) is handled without error, in every
session state and for every button; redundant or invalid actions on real
tiles are silent no-ops.  (The unamended claim, over *all* in-window pixels,
fails: the window is `H*40 + 50` pixels tall and a click in the 50-pixel
info strip subscripts row `H`, raising `IndexError` — see the
counterexample.) -/
theorem c6_inboard_click_no_error (W H M : Nat) (regen : List (Nat × Nat)) (xm ym : Nat)
    (butt : Button) (s : GameState) (hy : ym / 40 < H) (hx : xm / 40 < W) :
    handle_mouse W H M regen xm ym butt s ≠ none := by
  simp only [handle_mouse]
  by_cases hterm : s.lose = true ∨ s.win = true
  · simp [hterm]
  · rw [if_neg hterm]
    repeat' split
    all_goals simp_all

theorem c6_witness :
    (0 : Nat) / 40 < 3 ∧ (0 : Nat) / 40 < 3 ∧
    handle_mouse 3 3 1 [] 0 0 Button.left (new_game 3 3 0 [(1, 1)] initState) ≠ none :=
  ⟨by decide, by decide,
    c6_inboard_click_no_error 3 3 1 [] 0 0 Button.left
      (new_game 3 3 0 [(1, 1)] initState) (by decide) (by decide)⟩

/-- C6 counterexample: on a freshly started 3×3 game (a reachable state,
neither won nor lost), a left click at pixel `(0, 120)` lies inside the
`3*40 + 50 = 170` pixel tall window but maps to tile row `3`, out of range
for the 3-row `hiden` list: the handler raises `IndexError` (modelled as
`none`) instead of completing as a no-op. -/
theorem c6_counterexample :
    (handle_mouse 3 3 1 [] 0 120 Button.left (new_game 3 3 0 [(1, 1)] initState)).isNone
      = true ∧ 120 < 3 * 40 + 50 := by
  exact ⟨by decide, by decide⟩

/-! ### Claim theorems: C7 -/

/-- C7 (amended): mines are placed and adjacency counts computed already when
the menu starts a new game — before any reveal (`pressed = 0`, `turn = 0`) —
not as part of handling the first reveal; the first reveal regenerates the
board with the clicked tile excluded only when the clicked tile turns out to
be a mine. -/
theorem c7_mines_placed_at_new_game (W H now : Nat) (sample : List (Nat × Nat))
    (s : GameState) :
    (new_game W H now sample s).pressed = 0 ∧ (new_game W H now sample s).turn = 0 ∧
    (new_game W H now sample s).mine = sample ∧
    ∀ p ∈ sample, (new_game W H now sample s).field p.2 p.1 = Cell.mineC := by
  refine ⟨rfl, rfl, rfl, ?_⟩
  intro p hp
  show addnummine W H (place_mines sample (reset W H now s)).field p.2 p.1 = Cell.mineC
  apply (addnummine_mine_iff W H _ p.2 p.1).mpr
  rw [place_mines_field]
  have hmem : (p.1, p.2) ∈ sample := by cases p; exact hp
  rw [if_pos hmem]

theorem c7_witness :
    (new_game 3 3 0 [(0, 0)] initState).pressed = 0 ∧
    (new_game 3 3 0 [(0, 0)] initState).turn = 0 ∧
    (new_game 3 3 0 [(0, 0)] initState).mine = [(0, 0)] ∧
    ∀ p ∈ ([((0 : Nat), (0 : Nat))] : List (Nat × Nat)),
      (new_game 3 3 0 [(0, 0)] initState).field p.2 p.1 = Cell.mineC :=
  c7_mines_placed_at_new_game 3 3 0 [(0, 0)] initState

/-- C7 counterexample: start a 3×3 game with the mine sample `[(0,0)]`.  No
reveal has happened yet (`pressed = 0`, `turn = 0`), i.e. the session is in
the claim's "Pending" phase, yet tile `(0,0)` of the ground-truth grid is
already a mine: placement was not deferred to the first reveal. -/
theorem c7_counterexample :
    (new_game 3 3 0 [(0, 0)] initState).pressed = 0 ∧
    (new_game 3 3 0 [(0, 0)] initState).turn = 0 ∧
    (new_game 3 3 0 [(0, 0)] initState).field 0 0 = Cell.mineC := by
  exact ⟨by decide, by decide, by decide⟩

/-! ### Claim theorems: C2 -/

/-- C2 (code bug): on a 3×3 board with `M = 1` whose initial layout has its
mine at `(0,0)`, the first left click at `(0,0)` takes the regeneration
branch (new mine at `(2,2)`), and the flood fill then reveals all
`3*3 − 1 = 8` safe tiles, so the opened-tile counter reaches `W*H − M`
during this reveal action — but the win flag stays `false` and no record is
emitted, because the win check sits in the `elif` arm that the regeneration
branch skips.  The win is only granted by a later redundant click. -/
theorem c2_win_skipped_on_regen_path :
    ((handle_mouse 3 3 1 [(2, 2)] 0 0 Button.left (new_game 3 3 0 [(0, 0)] initState)).map
        (fun p => (p.1.pressed, p.1.win, p.2.isSome))) = some (3 * 3 - 1, false, false) ∧
    (new_game 3 3 0 [(0, 0)] initState).pressed = 0 := by
  exact ⟨by decide, by decide⟩

/-! ### Claim theorems: C8 -/

/-- C8 (amended): in a non-terminal state, a reveal click on a tile whose
overlay is flagged or already shows a digit leaves the session state exactly
unchanged and emits no record, **provided** the opened-tile counter does not
equal `W*H − M`.  (Without that proviso the claim fails: after the
first-click regeneration path the counter can already equal `W*H − M` with
`win` still unset, and the redundant click then sets `win` and emits a win
record — see the counterexample.) -/
theorem c8_reveal_on_nonhidden_noop (W H M : Nat) (regen : List (Nat × Nat)) (xm ym : Nat)
    (s : GameState) (hl : s.lose = false) (hw : s.win = false)
    (hy : ym / 40 < H) (hx : xm / 40 < W)
    (hhid : s.hiden (ym / 40) (xm / 40) = Cell.flagC ∨
            ∃ n, s.hiden (ym / 40) (xm / 40) = Cell.digit n)
    (hp : s.pressed ≠ W * H - M) :
    handle_mouse W H M regen xm ym Button.left s = some (s, none) := by
  have hterm : ¬(s.lose = true ∨ s.win = true) := by simp [hl, hw]
  have hnb : ¬ s.hiden (ym / 40) (xm / 40) = Cell.blank := by
    rcases hhid with h | ⟨n, h⟩ <;> simp [h]
  have hnm : ¬ s.hiden (ym / 40) (xm / 40) = Cell.mineC := by
    rcases hhid with h | ⟨n, h⟩ <;> simp [h]
  simp only [handle_mouse]
  rw [if_neg hterm, if_pos ⟨hy, hx⟩, if_neg hnb, if_neg hnm, if_neg hp]

theorem c8_witness :
    regenTrace.lose = false ∧ regenTrace.win = false ∧
    (0 : Nat) / 40 < 3 ∧ (0 : Nat) / 40 < 3 ∧
    (regenTrace.hiden 0 0 = Cell.flagC ∨ ∃ n, regenTrace.hiden 0 0 = Cell.digit n) ∧
    regenTrace.pressed ≠ 3 * 3 - 2 ∧
    handle_mouse 3 3 2 [] 0 0 Button.left regenTrace = some (regenTrace, none) :=
  ⟨by decide, by decide, by decide, by decide, Or.inr ⟨0, by decide⟩, by decide,
    c8_reveal_on_nonhidden_noop 3 3 2 [] 0 0 regenTrace (by decide) (by decide)
      (by decide) (by decide) (Or.inr ⟨0, by decide⟩) (by decide)⟩

/-- C8 counterexample: `regenTrace` is reachable, not terminal, and tile
`(0,0)` is already revealed (overlay digit `0`), yet the redundant reveal
click on it changes the state — it sets `win` — and emits a record. -/
theorem c8_counterexample :
    regenTrace.lose = false ∧ regenTrace.win = false ∧
    regenTrace.hiden 0 0 = Cell.digit 0 ∧
    ((handle_mouse 3 3 1 [] 0 0 Button.left regenTrace).map
        (fun p => (p.1.win, p.2.isSome))) = some (true, true) := by
  exact ⟨by decide, by decide, by decide, by decide⟩

/-! ### Claim theorems: C9 -/

/-- C9: in a non-terminal state, right-clicking a hidden tile flags it, and
right-clicking it again returns the session to exactly the original state —
in particular the overlay is hidden again and the correctly-flagged-mine
counter has net change zero. -/
theorem c9_flag_toggle_twice (W H M : Nat) (regen : List (Nat × Nat)) (xm ym : Nat)
    (s : GameState) (hl : s.lose = false) (hw : s.win = false)
    (hy : ym / 40 < H) (hx : xm / 40 < W)
    (hhid : s.hiden (ym / 40) (xm / 40) = Cell.blank) :
    ∃ s1 : GameState,
      handle_mouse W H M regen xm ym Button.right s = some (s1, none) ∧
      s1.hiden (ym / 40) (xm / 40) = Cell.flagC ∧
      handle_mouse W H M regen xm ym Button.right s1 = some (s, none) := by
  have hterm : ¬(s.lose = true ∨ s.win = true) := by simp [hl, hw]
  refine ⟨({ s with
             hiden := update2 s.hiden (ym / 40) (xm / 40) Cell.flagC,
             flag := s.flag +
               (if s.field (ym / 40) (xm / 40) = Cell.mineC then 1 else 0) } : GameState),
    ?_, ?_, ?_⟩
  · simp only [handle_mouse]
    rw [if_neg hterm, if_pos ⟨hy, hx⟩, if_pos hhid]
  · exact update2_self _ _ _ _
  · simp only [handle_mouse]
    rw [if_neg hterm, if_pos ⟨hy, hx⟩]
    rw [if_neg (show ¬ update2 s.hiden (ym / 40) (xm / 40) Cell.flagC (ym / 40) (xm / 40)
          = Cell.blank by rw [update2_self]; simp)]
    rw [if_pos (update2_self s.hiden (ym / 40) (xm / 40) Cell.flagC)]
    have hh : update2 (update2 s.hiden (ym / 40) (xm / 40) Cell.flagC) (ym / 40) (xm / 40)
        Cell.blank = s.hiden := by
      funext r' c'
      by_cases hrc : r' = ym / 40 ∧ c' = xm / 40
      · obtain ⟨h1, h2⟩ := hrc; subst h1; subst h2
        rw [update2_self, hhid]
      · rw [update2_ne _ _ _ _ hrc, update2_ne _ _ _ _ hrc]
    rw [hh, add_sub_cancel_right]

theorem c9_witness :
    (new_game 3 3 0 [(1, 1)] initState).lose = false ∧
    (new_game 3 3 0 [(1, 1)] initState).win = false ∧
    (0 : Nat) / 40 < 3 ∧ (0 : Nat) / 40 < 3 ∧
    (new_game 3 3 0 [(1, 1)] initState).hiden 0 0 = Cell.blank ∧
    ∃ s1 : GameState,
      handle_mouse 3 3 1 [] 0 0 Button.right (new_game 3 3 0 [(1, 1)] initState) =
        some (s1, none) ∧
      s1.hiden 0 0 = Cell.flagC ∧
      handle_mouse 3 3 1 [] 0 0 Button.right s1 =
        some (new_game 3 3 0 [(1, 1)] initState, none) :=
  ⟨by decide, by decide, by decide, by decide, by decide,
    c9_flag_toggle_twice 3 3 1 [] 0 0 (new_game 3 3 0 [(1, 1)] initState)
      (by decide) (by decide) (by decide) (by decide) (by decide)⟩

/-! ### Claim theorems: C5 -/

theorem mem_gridF {W H c r : Nat} : (c, r) ∈ gridF W H ↔ c < W ∧ r < H := by
  simp [gridF, Finset.mem_product, Finset.mem_range]

/-- C5: after a new game places the sampled mines and computes adjacency,
exactly `M` tiles of the ground-truth grid are mines (the sample is distinct
and of length `M`, as `random.sample` guarantees), and every non-mine tile
carries the count of mines in its clipped Moore neighbourhood. -/
theorem c5_mine_count_and_adjacency (W H M now : Nat) (sample : List (Nat × Nat))
    (s : GameState) (hnd : sample.Nodup) (hlen : sample.length = M)
    (hin : ∀ p ∈ sample, p.1 < W ∧ p.2 < H) :
    ((gridF W H).filter
        (fun p => (new_game W H now sample s).field p.2 p.1 = Cell.mineC)).card = M ∧
    wfField W H (new_game W H now sample s).field := by
  have hg0 : ∀ r c, (place_mines sample (reset W H now s)).field r c =
      if (c, r) ∈ sample then Cell.mineC else Cell.blank := by
    intro r c
    rw [place_mines_field]
    rfl
  have hfield : (new_game W H now sample s).field =
      addnummine W H (place_mines sample (reset W H now s)).field := rfl
  have hmmine : ∀ p : Nat × Nat,
      (new_game W H now sample s).field p.2 p.1 = Cell.mineC ↔ p ∈ sample := by
    intro p
    rw [hfield, addnummine_mine_iff, hg0]
    by_cases h : (p.1, p.2) ∈ sample
    · constructor
      · intro _; exact h
      · intro _; rw [if_pos h]
    · rw [if_neg h]
      constructor
      · intro hb; exact absurd hb (by simp)
      · intro hp; exact absurd hp h
  constructor
  · have hfe : (gridF W H).filter
        (fun p => (new_game W H now sample s).field p.2 p.1 = Cell.mineC) =
        sample.toFinset := by
      ext p
      simp only [Finset.mem_filter, List.mem_toFinset, hmmine p]
      constructor
      · rintro ⟨_, hp⟩; exact hp
      · intro hp
        refine ⟨?_, hp⟩
        have hb := hin p hp
        simp [gridF, Finset.mem_product, Finset.mem_range, hb.1, hb.2]
    rw [hfe, List.toFinset_card_of_nodup hnd, hlen]
  · intro r hr c hc hnm
    rw [hfield] at hnm ⊢
    rw [addnummine_value W H _ hr hc] at hnm ⊢
    by_cases h0 : (place_mines sample (reset W H now s)).field r c = Cell.mineC
    · rw [if_pos h0] at hnm; exact absurd rfl hnm
    · rw [if_neg h0] at hnm ⊢
      rw [countNbrMines_addnummine]

theorem c5_witness :
    ([((1 : Nat), (1 : Nat))] : List (Nat × Nat)).Nodup ∧
    ([((1 : Nat), (1 : Nat))] : List (Nat × Nat)).length = 1 ∧
    (∀ p ∈ ([((1 : Nat), (1 : Nat))] : List (Nat × Nat)), p.1 < 3 ∧ p.2 < 3) ∧
    (((gridF 3 3).filter
        (fun p => (new_game 3 3 0 [(1, 1)] initState).field p.2 p.1 = Cell.mineC)).card = 1 ∧
      wfField 3 3 (new_game 3 3 0 [(1, 1)] initState).field) :=
  ⟨by decide, by decide, by decide,
    c5_mine_count_and_adjacency 3 3 1 0 [(1, 1)] initState (by decide) (by decide)
      (by decide)⟩

theorem MetaEq.field_eq {a b : GameState} (h : MetaEq a b) : a.field = b.field := h.1

theorem MetaEq.mine_eq {a b : GameState} (h : MetaEq a b) : a.mine = b.mine := h.2.1

theorem MetaEq.lose_eq {a b : GameState} (h : MetaEq a b) : a.lose = b.lose := h.2.2.2.1

theorem MetaEq.turn_eq {a b : GameState} (h : MetaEq a b) : a.turn = b.turn := h.2.2.2.2.2.1

theorem MetaEq.flag_eq {a b : GameState} (h : MetaEq a b) : a.flag = b.flag := h.2.2.2.2.2.2.1

/-! ### Claim theorems: C3 -/

/-- C3: in a non-terminal state in which at least one reveal has already
happened (`1 ≤ pressed`, so this click is not the regenerating first
reveal), with the mine list consistent with the ground-truth grid, a reveal
click on a hidden tile transitions the session to Lost exactly when that
tile is a mine; on loss every mine tile of the grid becomes visible in the
overlay and the emitted record carries mines-left `M` minus the
correctly-flagged-mine counter at that moment (plus the timestamp, clock
and incremented turn count); a reveal of a non-mine tile never sets the
lose flag. -/
theorem c3_lost_iff_mine_revealed (W H M : Nat) (regen : List (Nat × Nat)) (xm ym : Nat)
    (s : GameState) (hl : s.lose = false) (hw : s.win = false)
    (hy : ym / 40 < H) (hx : xm / 40 < W)
    (hhid : s.hiden (ym / 40) (xm / 40) = Cell.blank)
    (hp : 1 ≤ s.pressed)
    (hmine2 : ∀ p ∈ gridF W H, s.field p.2 p.1 = Cell.mineC → p ∈ s.mine) :
    (s.field (ym / 40) (xm / 40) = Cell.mineC →
      ∃ s' : GameState,
        handle_mouse W H M regen xm ym Button.left s =
          some (s', some (GameRec.lostRec s.time ((M : Int) - s.flag) s.tick (s.turn + 1))) ∧
        s'.lose = true ∧
        (∀ r, r < H → ∀ c, c < W → s.field r c = Cell.mineC → s'.hiden r c = Cell.mineC)) ∧
    (s.field (ym / 40) (xm / 40) ≠ Cell.mineC →
      ∃ s' o, handle_mouse W H M regen xm ym Button.left s = some (s', o) ∧
        s'.lose = false) := by
  have hterm : ¬(s.lose = true ∨ s.win = true) := by simp [hl, hw]
  constructor
  · intro hm
    simp only [handle_mouse]
    rw [if_neg hterm, if_pos ⟨hy, hx⟩, if_pos hhid]
    set pre : GameState :=
      { s with pressed := s.pressed + 1, turn := s.turn + 1,
               hiden := update2 s.hiden (ym / 40) (xm / 40)
                 (s.field (ym / 40) (xm / 40)) } with hpre
    have hbreak := floodfill_break W H (xm / 40) (ym / 40) pre
      (by rw [hpre]; show ¬ s.field (ym / 40) (xm / 40) = Cell.digit 0; simp [hm])
    rw [hbreak]
    rw [if_pos (show ({ pre with
          visited := setVisited pre.visited (ym / 40) (xm / 40) } : GameState).hiden
            (ym / 40) (xm / 40) = Cell.mineC by
        show update2 s.hiden (ym / 40) (xm / 40) (s.field (ym / 40) (xm / 40))
            (ym / 40) (xm / 40) = Cell.mineC
        rw [update2_self, hm])]
    rw [if_neg (show ¬ ({ pre with
          visited := setVisited pre.visited (ym / 40) (xm / 40) } : GameState).pressed
            = 1 by show ¬ s.pressed + 1 = 1; omega)]
    refine ⟨_, rfl, rfl, ?_⟩
    intro r hr c hc hmrc
    have hmem : (c, r) ∈ s.mine := hmine2 (c, r) (mem_gridF.mpr ⟨hc, hr⟩) hmrc
    show show_remainingmine _ r c = Cell.mineC
    rw [show_remainingmine_eq]
    show (if (c, r) ∈ s.mine then s.field r c else _) = Cell.mineC
    rw [if_pos hmem, hmrc]
  · intro hnm
    simp only [handle_mouse]
    rw [if_neg hterm, if_pos ⟨hy, hx⟩, if_pos hhid]
    set pre : GameState :=
      { s with pressed := s.pressed + 1, turn := s.turn + 1,
               hiden := update2 s.hiden (ym / 40) (xm / 40)
                 (s.field (ym / 40) (xm / 40)) } with hpre
    have hno : ¬ (floodfill W H (xm / 40) (ym / 40) pre).hiden (ym / 40) (xm / 40)
        = Cell.mineC := by
      rcases floodfill_hiden_or W H (xm / 40) (ym / 40) pre (ym / 40) (xm / 40) with h | h
      · rw [h, hpre]
        show ¬ update2 s.hiden (ym / 40) (xm / 40) (s.field (ym / 40) (xm / 40))
            (ym / 40) (xm / 40) = Cell.mineC
        rw [update2_self]; exact hnm
      · rw [h, hpre]; exact hnm
    rw [if_neg hno]
    have hlose : (floodfill W H (xm / 40) (ym / 40) pre).lose = false := by
      rw [(floodfill_meta W H (xm / 40) (ym / 40) pre).lose_eq, hpre]; exact hl
    by_cases hwin : (floodfill W H (xm / 40) (ym / 40) pre).pressed = W * H - M
    · rw [if_pos hwin]
      exact ⟨_, _, rfl, hlose⟩
    · rw [if_neg hwin]
      exact ⟨_, _, rfl, hlose⟩

theorem c3_witness :
    centreMineTrace.lose = false ∧ centreMineTrace.win = false ∧
    (40 : Nat) / 40 < 3 ∧ (40 : Nat) / 40 < 3 ∧
    centreMineTrace.hiden 1 1 = Cell.blank ∧ 1 ≤ centreMineTrace.pressed ∧
    (∀ p ∈ gridF 3 3, centreMineTrace.field p.2 p.1 = Cell.mineC →
      p ∈ centreMineTrace.mine) ∧
    ((centreMineTrace.field 1 1 = Cell.mineC →
      ∃ s' : GameState,
        handle_mouse 3 3 1 [] 40 40 Button.left centreMineTrace =
          some (s', some (GameRec.lostRec centreMineTrace.time
            ((1 : Int) - centreMineTrace.flag) centreMineTrace.tick
            (centreMineTrace.turn + 1))) ∧
        s'.lose = true ∧
        (∀ r, r < 3 → ∀ c, c < 3 → centreMineTrace.field r c = Cell.mineC →
          s'.hiden r c = Cell.mineC)) ∧
     (centreMineTrace.field 1 1 ≠ Cell.mineC →
      ∃ s' o, handle_mouse 3 3 1 [] 40 40 Button.left centreMineTrace = some (s', o) ∧
        s'.lose = false)) :=
  ⟨by decide, by decide, by decide, by decide, by decide, by decide, by decide,
    c3_lost_iff_mine_revealed 3 3 1 [] 40 40 centreMineTrace (by decide) (by decide)
      (by decide) (by decide) (by decide) (by decide) (by decide)⟩

/-! ### Claim theorems: C1 -/

/-- C1: in a fresh game (no tile opened yet, `pressed = 0`), the first
reveal click on a hidden tile always completes with the clicked tile not a
mine in the ground-truth grid: either the initial layout left it safe and
the grid is unchanged, or the board is regenerated from the `regen` sample —
drawn from the tiles with the clicked one excluded, so not containing it —
before the reveal completes. -/
theorem c1_first_reveal_not_mine (W H M : Nat) (regen : List (Nat × Nat)) (xm ym : Nat)
    (s : GameState) (hl : s.lose = false) (hw : s.win = false)
    (hy : ym / 40 < H) (hx : xm / 40 < W)
    (hp0 : s.pressed = 0)
    (hhid : s.hiden (ym / 40) (xm / 40) = Cell.blank)
    (hreg : (xm / 40, ym / 40) ∉ regen) :
    ∃ s' o, handle_mouse W H M regen xm ym Button.left s = some (s', o) ∧
      s'.field (ym / 40) (xm / 40) ≠ Cell.mineC := by
  have hterm : ¬(s.lose = true ∨ s.win = true) := by simp [hl, hw]
  simp only [handle_mouse]
  rw [if_neg hterm, if_pos ⟨hy, hx⟩, if_pos hhid]
  set pre : GameState :=
    { s with pressed := s.pressed + 1, turn := s.turn + 1,
             hiden := update2 s.hiden (ym / 40) (xm / 40)
               (s.field (ym / 40) (xm / 40)) } with hpre
  by_cases hm : s.field (ym / 40) (xm / 40) = Cell.mineC
  · have hbreak := floodfill_break W H (xm / 40) (ym / 40) pre
      (by rw [hpre]; show ¬ s.field (ym / 40) (xm / 40) = Cell.digit 0; simp [hm])
    rw [hbreak]
    rw [if_pos (show ({ pre with
          visited := setVisited pre.visited (ym / 40) (xm / 40) } : GameState).hiden
            (ym / 40) (xm / 40) = Cell.mineC by
        show update2 s.hiden (ym / 40) (xm / 40) (s.field (ym / 40) (xm / 40))
            (ym / 40) (xm / 40) = Cell.mineC
        rw [update2_self, hm])]
    rw [if_pos (show ({ pre with
          visited := setVisited pre.visited (ym / 40) (xm / 40) } : GameState).pressed
            = 1 by show s.pressed + 1 = 1; rw [hp0])]
    refine ⟨_, _, rfl, ?_⟩
    rw [(floodfill_meta W H (xm / 40) (ym / 40) _).field_eq]
    show ¬ addnummine W H (place_mines regen _).field (ym / 40) (xm / 40) = Cell.mineC
    rw [addnummine_mine_iff, place_mines_field]
    rw [if_neg hreg]
    simp
  · have hno : ¬ (floodfill W H (xm / 40) (ym / 40) pre).hiden (ym / 40) (xm / 40)
        = Cell.mineC := by
      rcases floodfill_hiden_or W H (xm / 40) (ym / 40) pre (ym / 40) (xm / 40) with h | h
      · rw [h, hpre]
        show ¬ update2 s.hiden (ym / 40) (xm / 40) (s.field (ym / 40) (xm / 40))
            (ym / 40) (xm / 40) = Cell.mineC
        rw [update2_self]; exact hm
      · rw [h, hpre]; exact hm
    rw [if_neg hno]
    have hfe : (floodfill W H (xm / 40) (ym / 40) pre).field (ym / 40) (xm / 40)
        ≠ Cell.mineC := by
      rw [(floodfill_meta W H (xm / 40) (ym / 40) pre).field_eq, hpre]; exact hm
    by_cases hwin : (floodfill W H (xm / 40) (ym / 40) pre).pressed = W * H - M
    · rw [if_pos hwin]
      exact ⟨_, _, rfl, hfe⟩
    · rw [if_neg hwin]
      exact ⟨_, _, rfl, hfe⟩

theorem c1_witness :
    (new_game 3 3 0 [(0, 0)] initState).lose = false ∧
    (new_game 3 3 0 [(0, 0)] initState).win = false ∧
    (0 : Nat) / 40 < 3 ∧ (0 : Nat) / 40 < 3 ∧
    (new_game 3 3 0 [(0, 0)] initState).pressed = 0 ∧
    (new_game 3 3 0 [(0, 0)] initState).hiden 0 0 = Cell.blank ∧
    ((0 : Nat) / 40, (0 : Nat) / 40) ∉ [((2 : Nat), (2 : Nat))] ∧
    ∃ s' o, handle_mouse 3 3 1 [(2, 2)] 0 0 Button.left (new_game 3 3 0 [(0, 0)] initState) =
        some (s', o) ∧ s'.field 0 0 ≠ Cell.mineC :=
  ⟨by decide, by decide, by decide, by decide, by decide, by decide, by decide,
    c1_first_reveal_not_mine 3 3 1 [(2, 2)] 0 0 (new_game 3 3 0 [(0, 0)] initState)
      (by decide) (by decide) (by decide) (by decide) (by decide) (by decide) (by decide)⟩

/-! ### Zero-region reachability: basic lemmas -/

theorem setVisited_true_src (v : Nat → Nat → Bool) (r c r' c' : Nat)
    (h : setVisited v r c r' c' = true) : (r' = r ∧ c' = c) ∨ v r' c' = true := by
  by_cases hrc : r' = r ∧ c' = c
  · exact Or.inl hrc
  · right; rw [setVisited_ne v r c hrc] at h; exact h

theorem setVisited_false_src (v : Nat → Nat → Bool) (r c r' c' : Nat)
    (h : setVisited v r c r' c' = false) : v r' c' = false := by
  by_cases hrc : r' = r ∧ c' = c
  · rw [hrc.1, hrc.2, setVisited_self] at h; exact absurd h (by simp)
  · rw [setVisited_ne v r c hrc] at h; exact h

theorem adjB_inGrid {W H : Nat} {p t : Nat × Nat} (h : adjB W H p t) :
    inGridP W H t := by
  have hm := mem_nbrList.mp h
  exact ⟨by omega, by omega⟩

theorem adjB_self {W H : Nat} {p : Nat × Nat} (h : inGridP W H p) : adjB W H p p := by
  apply mem_nbrList.mpr
  obtain ⟨h1, h2⟩ := h
  omega

theorem zreach_zero {W H : Nat} {f : Grid} {s0 t : Nat × Nat}
    (h0 : f s0.2 s0.1 = Cell.digit 0) (h : zreach W H f s0 t) :
    f t.2 t.1 = Cell.digit 0 := by
  induction h with
  | refl => exact h0
  | tail _ hstep _ => exact hstep.2

theorem zreach_inGrid {W H : Nat} {f : Grid} {s0 t : Nat × Nat}
    (hin : inGridP W H s0) (h : zreach W H f s0 t) : inGridP W H t := by
  induction h with
  | refl => exact hin
  | tail _ hstep _ => exact adjB_inGrid hstep.1

/-- In a well-formed field, no cell of the box around a zero-valued in-grid
cell is a mine (its stored count is the number of mines in exactly that
box). -/
theorem wf_zero_box_no_mine {W H : Nat} {f : Grid} (hwf : wfField W H f)
    {z : Nat × Nat} (hz : inGridP W H z) (h0 : f z.2 z.1 = Cell.digit 0)
    {i j : Nat} (hmem : (i, j) ∈ nbrList W H z.1 z.2) : f i j ≠ Cell.mineC := by
  intro hm
  have hval := hwf z.2 hz.2 z.1 hz.1 (by rw [h0]; simp)
  rw [h0] at hval
  have hcnt : countNbrMines W H f z.1 z.2 = 0 := by
    have := Cell.digit.injEq 0 (countNbrMines W H f z.1 z.2) ▸ hval
    omega
  have hnil : (nbrList W H z.1 z.2).filter (fun p => f p.1 p.2 = Cell.mineC) = [] :=
    List.length_eq_zero.mp hcnt
  have := List.filter_eq_nil_iff.mp hnil (i, j) hmem
  simp [hm] at this

theorem inRB_not_mine {W H : Nat} {f : Grid} (hwf : wfField W H f)
    {s0 : Nat × Nat} (hin : inGridP W H s0) (h0 : f s0.2 s0.1 = Cell.digit 0)
    {t : Nat × Nat} (h : inRB W H f s0 t) : f t.2 t.1 ≠ Cell.mineC := by
  rcases h with h | ⟨z, hz, hadj, _⟩
  · rw [zreach_zero h0 h]; simp
  · exact wf_zero_box_no_mine hwf (zreach_inGrid hin hz) (zreach_zero h0 hz) hadj

/-! ### Visited-count lemmas -/

theorem visCntM_congr (W H : Nat) {v v' : Nat → Nat → Bool}
    (h : ∀ r c, v r c = v' r c) : visCntM W H v = visCntM W H v' := by
  unfold visCntM
  congr 1
  apply Finset.filter_congr
  intro p _
  rw [h p.2 p.1]

theorem unvisCntM_congr (W H : Nat) {v v' : Nat → Nat → Bool}
    (h : ∀ r c, v r c = v' r c) : unvisCntM W H v = unvisCntM W H v' := by
  unfold unvisCntM
  congr 1
  apply Finset.filter_congr
  intro p _
  rw [h p.2 p.1]

theorem setVisited_already (v : Nat → Nat → Bool) {r c : Nat} (h : v r c = true)
    (r' c' : Nat) : setVisited v r c r' c' = v r' c' := by
  by_cases hrc : r' = r ∧ c' = c
  · rw [hrc.1, hrc.2, setVisited_self, h]
  · exact setVisited_ne v r c hrc

/-- Marking a fresh in-grid cell moves exactly one cell from the unvisited
to the visited count. -/
theorem cnt_mark_fresh (W H : Nat) (v : Nat → Nat → Bool) {i j : Nat}
    (hi : i < H) (hj : j < W) (hv : v i j = false) :
    visCntM W H (setVisited v i j) = visCntM W H v + 1 ∧
    unvisCntM W H (setVisited v i j) + 1 = unvisCntM W H v := by
  have hmemg : (j, i) ∈ gridF W H := mem_gridF.mpr ⟨hj, hi⟩
  have hvis : (gridF W H).filter (fun p => setVisited v i j p.2 p.1 = true) =
      insert (j, i) ((gridF W H).filter (fun p => v p.2 p.1 = true)) := by
    ext p
    simp only [Finset.mem_filter, Finset.mem_insert]
    constructor
    · rintro ⟨hg, hp⟩
      rcases setVisited_true_src v i j p.2 p.1 hp with ⟨h1, h2⟩ | hp'
      · left
        cases p with | mk a b => simp_all
      · right; exact ⟨hg, hp'⟩
    · rintro (hp | ⟨hg, hp⟩)
      · subst hp
        exact ⟨hmemg, by rw [setVisited_self]⟩
      · exact ⟨hg, setVisited_mono v i j hp⟩
  have hnmem : (j, i) ∉ (gridF W H).filter (fun p => v p.2 p.1 = true) := by
    simp [Finset.mem_filter, hv]
  have hunv : (gridF W H).filter (fun p => v p.2 p.1 = false) =
      insert (j, i) ((gridF W H).filter (fun p => setVisited v i j p.2 p.1 = false)) := by
    ext p
    simp only [Finset.mem_filter, Finset.mem_insert]
    constructor
    · rintro ⟨hg, hp⟩
      by_cases hpe : p = (j, i)
      · exact Or.inl hpe
      · right
        refine ⟨hg, ?_⟩
        rw [setVisited_ne v i j (by
          intro hcon
          exact hpe (by cases p with | mk a b => simp_all))]
        exact hp
    · rintro (hp | ⟨hg, hp⟩)
      · subst hp
        exact ⟨hmemg, hv⟩
      · exact ⟨hg, setVisited_false_src v i j p.2 p.1 hp⟩
  have hnmem2 : (j, i) ∉ (gridF W H).filter
      (fun p => setVisited v i j p.2 p.1 = false) := by
    simp [Finset.mem_filter, setVisited_self]
  constructor
  · unfold visCntM
    rw [hvis, Finset.card_insert_of_not_mem hnmem]
  · unfold unvisCntM
    rw [hunv, Finset.card_insert_of_not_mem hnmem2]

theorem unvisCntM_le_grid (W H : Nat) (v : Nat → Nat → Bool) :
    unvisCntM W H v ≤ W * H := by
  have h1 : unvisCntM W H v ≤ (gridF W H).card := Finset.card_filter_le _ _
  have h2 : (gridF W H).card = W * H := by
    unfold gridF
    rw [Finset.card_product, Finset.card_range, Finset.card_range]
  omega

theorem visCntM_allfalse (W H : Nat) (v : Nat → Nat → Bool)
    (h : ∀ r c, v r c = false) : visCntM W H v = 0 := by
  unfold visCntM
  rw [Finset.card_eq_zero]
  apply Finset.filter_eq_empty_iff.mpr
  intro p _
  simp [h p.2 p.1]

/-! ### Properties of the inner expansion loop -/

theorem bool_not_true {b : Bool} (h : ¬ b = true) : b = false := by
  cases b
  · rfl
  · exact absurd rfl h

theorem ffExpand_visited_mono : ∀ (l : List (Nat × Nat)) (s : GameState) (r c : Nat),
    s.visited r c = true → (ffExpand s l).1.visited r c = true := by
  intro l
  induction l with
  | nil => intro s r c h; exact h
  | cons p t ih =>
    intro s r c h
    rw [ffExpand_cons]
    by_cases hv : s.visited p.1 p.2 = true
    · rw [if_pos hv]; exact ih s r c h
    · rw [if_neg hv]
      exact ih (ffMarkCell s p) r c (setVisited_mono _ _ _ h)

theorem ffExpand_visited_src : ∀ (l : List (Nat × Nat)) (s : GameState) (r c : Nat),
    (ffExpand s l).1.visited r c = true → s.visited r c = true ∨ (r, c) ∈ l := by
  intro l
  induction l with
  | nil => intro s r c h; exact Or.inl h
  | cons p t ih =>
    intro s r c h
    rw [ffExpand_cons] at h
    by_cases hv : s.visited p.1 p.2 = true
    · rw [if_pos hv] at h
      rcases ih s r c h with h' | h'
      · exact Or.inl h'
      · exact Or.inr (List.mem_cons_of_mem p h')
    · rw [if_neg hv] at h
      rcases ih (ffMarkCell s p) r c h with h' | h'
      · rcases setVisited_true_src s.visited p.1 p.2 r c h' with ⟨h1, h2⟩ | h''
        · right
          rw [List.mem_cons]
          left
          cases p with | mk a b => simp_all
        · exact Or.inl h''
      · exact Or.inr (List.mem_cons_of_mem p h')

theorem ffExpand_visits_all : ∀ (l : List (Nat × Nat)) (s : GameState),
    ∀ p ∈ l, (ffExpand s l).1.visited p.1 p.2 = true := by
  intro l
  induction l with
  | nil => intro s p hp; exact absurd hp (List.not_mem_nil p)
  | cons q t ih =>
    intro s p hp
    rw [ffExpand_cons]
    by_cases hv : s.visited q.1 q.2 = true
    · rw [if_pos hv]
      rcases List.mem_cons.mp hp with hpq | hpt
      · subst hpq; exact ffExpand_visited_mono t s p.1 p.2 hv
      · exact ih s p hpt
    · rw [if_neg hv]
      rcases List.mem_cons.mp hp with hpq | hpt
      · subst hpq
        exact ffExpand_visited_mono t (ffMarkCell s p) p.1 p.2 (setVisited_self _ _ _)
      · exact ih (ffMarkCell s q) p hpt

theorem ffExpand_hiden_untouched : ∀ (l : List (Nat × Nat)) (s : GameState) (r c : Nat),
    ((r, c) ∉ l ∨ s.visited r c = true) →
    (ffExpand s l).1.hiden r c = s.hiden r c := by
  intro l
  induction l with
  | nil => intro s r c _; rfl
  | cons p t ih =>
    intro s r c h
    rw [ffExpand_cons]
    by_cases hv : s.visited p.1 p.2 = true
    · rw [if_pos hv]
      apply ih
      rcases h with h | h
      · exact Or.inl (fun hm => h (List.mem_cons_of_mem p hm))
      · exact Or.inr h
    · rw [if_neg hv]
      have hne : ¬(r = p.1 ∧ c = p.2) := by
        rintro ⟨h1, h2⟩
        rcases h with h | h
        · exact h (by rw [List.mem_cons]; left; cases p with | mk a b => simp_all)
        · subst h1; subst h2; rw [h] at hv; exact hv rfl
      have step : (ffExpand (ffMarkCell s p) t).1.hiden r c
          = (ffMarkCell s p).hiden r c := by
        apply ih
        rcases h with h | h
        · exact Or.inl (fun hm => h (List.mem_cons_of_mem p hm))
        · exact Or.inr (setVisited_mono _ _ _ h)
      rw [step]
      exact update2_ne _ _ _ _ hne

theorem ffExpand_new_hiden : ∀ (l : List (Nat × Nat)) (s : GameState) (r c : Nat),
    (ffExpand s l).1.visited r c = true → s.visited r c = false →
    (ffExpand s l).1.hiden r c = s.field r c := by
  intro l
  induction l with
  | nil =>
    intro s r c h h'
    exact absurd (show s.visited r c = true from h) (by simp [h'])
  | cons p t ih =>
    intro s r c h h'
    rw [ffExpand_cons] at h ⊢
    by_cases hv : s.visited p.1 p.2 = true
    · rw [if_pos hv] at h ⊢
      exact ih s r c h h'
    · rw [if_neg hv] at h ⊢
      by_cases hrc : r = p.1 ∧ c = p.2
      · have hvis1 : (ffMarkCell s p).visited r c = true := by
          rw [hrc.1, hrc.2]; exact setVisited_self _ _ _
        have huntouched : (ffExpand (ffMarkCell s p) t).1.hiden r c
            = (ffMarkCell s p).hiden r c :=
          ffExpand_hiden_untouched t (ffMarkCell s p) r c (Or.inr hvis1)
        rw [huntouched]
        show update2 s.hiden p.1 p.2 (s.field p.1 p.2) r c = s.field r c
        rw [hrc.1, hrc.2, update2_self]
      · have hv1 : (ffMarkCell s p).visited r c = false := by
          show setVisited s.visited p.1 p.2 r c = false
          rw [setVisited_ne _ _ _ hrc]; exact h'
        exact ih (ffMarkCell s p) r c h hv1

theorem ffExpand_queue_src : ∀ (l : List (Nat × Nat)) (s : GameState) (qp : Nat × Nat),
    qp ∈ (ffExpand s l).2 →
    (qp.2, qp.1) ∈ l ∧ s.field qp.2 qp.1 = Cell.digit 0 ∧
    (ffExpand s l).1.visited qp.2 qp.1 = true ∧ s.visited qp.2 qp.1 = false := by
  intro l
  induction l with
  | nil => intro s qp hqp; exact absurd hqp (List.not_mem_nil qp)
  | cons p t ih =>
    intro s qp hqp
    rw [ffExpand_cons] at hqp ⊢
    by_cases hv : s.visited p.1 p.2 = true
    · rw [if_pos hv] at hqp ⊢
      obtain ⟨h1, h2, h3, h4⟩ := ih s qp hqp
      exact ⟨List.mem_cons_of_mem p h1, h2, h3, h4⟩
    · rw [if_neg hv] at hqp ⊢
      rcases List.mem_append.mp hqp with hin | hin
      · by_cases hf0 : s.field p.1 p.2 = Cell.digit 0
        · rw [if_pos hf0] at hin
          have hqpe : qp = (p.2, p.1) := List.mem_singleton.mp hin
          subst hqpe
          refine ⟨by rw [List.mem_cons]; left; rfl, hf0, ?_, bool_not_true hv⟩
          · exact ffExpand_visited_mono t (ffMarkCell s p) p.1 p.2 (setVisited_self _ _ _)
        · rw [if_neg hf0] at hin
          exact absurd hin (List.not_mem_nil qp)
      · obtain ⟨h1, h2, h3, h4⟩ := ih (ffMarkCell s p) qp hin
        exact ⟨List.mem_cons_of_mem p h1, h2, h3,
          setVisited_false_src s.visited p.1 p.2 qp.2 qp.1 h4⟩

theorem ffExpand_zero_enqueued : ∀ (l : List (Nat × Nat)) (s : GameState) (r c : Nat),
    (ffExpand s l).1.visited r c = true → s.visited r c = false →
    s.field r c = Cell.digit 0 → (c, r) ∈ (ffExpand s l).2 := by
  intro l
  induction l with
  | nil =>
    intro s r c h h' hf0
    exact absurd (show s.visited r c = true from h) (by simp [h'])
  | cons p t ih =>
    intro s r c h h' hf0
    rw [ffExpand_cons] at h ⊢
    by_cases hv : s.visited p.1 p.2 = true
    · rw [if_pos hv] at h ⊢
      exact ih s r c h h' hf0
    · rw [if_neg hv] at h ⊢
      by_cases hrc : r = p.1 ∧ c = p.2
      · apply List.mem_append.mpr
        left
        obtain ⟨h1, h2⟩ := hrc
        subst h1; subst h2
        rw [if_pos hf0]
        exact List.mem_singleton.mpr rfl
      · have hv1 : (ffMarkCell s p).visited r c = false := by
          show setVisited s.visited p.1 p.2 r c = false
          rw [setVisited_ne _ _ _ hrc]; exact h'
        exact List.mem_append.mpr (Or.inr (ih (ffMarkCell s p) r c h hv1 hf0))

theorem ffExpand_pressed (W H : Nat) : ∀ (l : List (Nat × Nat)) (s : GameState),
    (∀ p ∈ l, p.1 < H ∧ p.2 < W) →
    (ffExpand s l).1.pressed + visCntM W H s.visited =
      s.pressed + visCntM W H (ffExpand s l).1.visited := by
  intro l
  induction l with
  | nil => intro s _; rfl
  | cons p t ih =>
    intro s hl
    rw [ffExpand_cons]
    by_cases hv : s.visited p.1 p.2 = true
    · rw [if_pos hv]
      exact ih s (fun q hq => hl q (List.mem_cons_of_mem p hq))
    · rw [if_neg hv]
      have hb := hl p (List.mem_cons_self p t)
      have hmk := cnt_mark_fresh W H s.visited hb.1 hb.2 (bool_not_true hv)
      have hrec := ih (ffMarkCell s p) (fun q hq => hl q (List.mem_cons_of_mem p hq))
      have hv1 : visCntM W H (ffMarkCell s p).visited = visCntM W H s.visited + 1 := hmk.1
      have hp1 : (ffMarkCell s p).pressed = s.pressed + 1 := rfl
      show (ffExpand (ffMarkCell s p) t).1.pressed + visCntM W H s.visited =
        s.pressed + visCntM W H (ffExpand (ffMarkCell s p) t).1.visited
      rw [hv1, hp1] at hrec
      omega

theorem ffExpand_queue_bound (W H : Nat) : ∀ (l : List (Nat × Nat)) (s : GameState),
    (∀ p ∈ l, p.1 < H ∧ p.2 < W) →
    (ffExpand s l).2.length + unvisCntM W H (ffExpand s l).1.visited ≤
      unvisCntM W H s.visited := by
  intro l
  induction l with
  | nil => intro s _; simp [ffExpand_nil]
  | cons p t ih =>
    intro s hl
    rw [ffExpand_cons]
    by_cases hv : s.visited p.1 p.2 = true
    · rw [if_pos hv]
      exact ih s (fun q hq => hl q (List.mem_cons_of_mem p hq))
    · rw [if_neg hv]
      have hb := hl p (List.mem_cons_self p t)
      have hmk := cnt_mark_fresh W H s.visited hb.1 hb.2 (bool_not_true hv)
      have hrec := ih (ffMarkCell s p) (fun q hq => hl q (List.mem_cons_of_mem p hq))
      have hunv : unvisCntM W H (ffMarkCell s p).visited + 1
          = unvisCntM W H s.visited := hmk.2
      have hlen : ((if s.field p.1 p.2 = Cell.digit 0 then [(p.2, p.1)] else []) ++
          (ffExpand (ffMarkCell s p) t).2).length ≤
          (ffExpand (ffMarkCell s p) t).2.length + 1 := by
        rw [List.length_append]
        by_cases hf0 : s.field p.1 p.2 = Cell.digit 0
        · rw [if_pos hf0]; simp; omega
        · rw [if_neg hf0]; simp
      show ((if s.field p.1 p.2 = Cell.digit 0 then [(p.2, p.1)] else []) ++
          (ffExpand (ffMarkCell s p) t).2).length +
          unvisCntM W H (ffExpand (ffMarkCell s p) t).1.visited ≤
          unvisCntM W H s.visited
      omega

theorem nbrList_inb {W H x y : Nat} : ∀ p ∈ nbrList W H x y, p.1 < H ∧ p.2 < W := by
  intro p hp
  cases p with
  | mk i j =>
    have hm := mem_nbrList.mp hp
    exact ⟨by omega, by omega⟩

/-- Pressed/visited-count lockstep of the queue loop, for a queue whose
elements are all already visited (which holds for every enqueued element;
only the seed of the top-level call is unvisited, and the top-level proof
peels that first iteration off by hand). -/
theorem ffLoop_pressed (W H : Nat) : ∀ (fuel : Nat) (q : List (Nat × Nat)) (s : GameState),
    (∀ p ∈ q, s.visited p.2 p.1 = true) →
    (ffLoop W H fuel q s).pressed + visCntM W H s.visited =
      s.pressed + visCntM W H (ffLoop W H fuel q s).visited := by
  intro fuel
  induction fuel with
  | zero => intro q s _; rfl
  | succ fuel ih =>
    intro q s hq
    cases q with
    | nil => rfl
    | cons sec rest =>
      rw [ffLoop_cons]
      have hsecv : s.visited sec.2 sec.1 = true := hq sec (List.mem_cons_self _ _)
      by_cases hz : s.field sec.2 sec.1 = Cell.digit 0
      · rw [if_pos hz]
        have hcv : visCntM W H (ffHead s sec).visited = visCntM W H s.visited :=
          visCntM_congr W H (fun r c => setVisited_already s.visited hsecv r c)
        have hE8 := ffExpand_pressed W H (nbrList W H sec.1 sec.2) (ffHead s sec)
          nbrList_inb
        have hqv : ∀ p ∈ rest ++ (ffExpand (ffHead s sec) (nbrList W H sec.1 sec.2)).2,
            (ffExpand (ffHead s sec) (nbrList W H sec.1 sec.2)).1.visited p.2 p.1
              = true := by
          intro p hp
          rcases List.mem_append.mp hp with hp | hp
          · exact ffExpand_visited_mono _ _ _ _
              (setVisited_mono _ _ _ (hq p (List.mem_cons_of_mem _ hp)))
          · exact (ffExpand_queue_src _ _ p hp).2.2.1
        have hrec := ih (rest ++ (ffExpand (ffHead s sec) (nbrList W H sec.1 sec.2)).2)
          (ffExpand (ffHead s sec) (nbrList W H sec.1 sec.2)).1 hqv
        have hps : (ffHead s sec).pressed = s.pressed := rfl
        rw [hcv, hps] at hE8
        omega
      · rw [if_neg hz]
        have hcv : visCntM W H (setVisited s.visited sec.2 sec.1)
            = visCntM W H s.visited :=
          visCntM_congr W H (fun r c => setVisited_already s.visited hsecv r c)
        show s.pressed + visCntM W H s.visited =
          s.pressed + visCntM W H (setVisited s.visited sec.2 sec.1)
        rw [hcv]

/-- The main loop lemma: from an invariant state with enough fuel
(`|queue| + #unvisited`, which only shrinks), the loop terminates with an
empty queue: the invariant holds with no queued tile (so every visited zero
tile has its whole box visited), visitedness is monotone, and every queued
tile ends up visited. -/
theorem ffLoop_main (W H : Nat) (f : Grid) (seed : Nat × Nat) (h0 : Grid) :
    ∀ (fuel : Nat) (q : List (Nat × Nat)) (s : GameState),
      FFInv W H f seed h0 q s →
      q.length + unvisCntM W H s.visited ≤ fuel →
      FFInv W H f seed h0 [] (ffLoop W H fuel q s) ∧
      (∀ r c, s.visited r c = true → (ffLoop W H fuel q s).visited r c = true) ∧
      (∀ p ∈ q, (ffLoop W H fuel q s).visited p.2 p.1 = true) := by
  intro fuel
  induction fuel with
  | zero =>
    intro q s hinv hfuel
    cases q with
    | cons a b =>
      exfalso
      have hlen : (a :: b).length + unvisCntM W H s.visited ≤ 0 := hfuel
      simp [List.length_cons] at hlen
    | nil =>
      rw [ffLoop_zero]
      exact ⟨⟨hinv.fieldEq, hinv.queue, hinv.vis, hinv.visHiden, hinv.unvisHiden,
        hinv.closure⟩, fun r c h => h, fun p hp => absurd hp (List.not_mem_nil p)⟩
  | succ fuel ih =>
    intro q s hinv hfuel
    cases q with
    | nil =>
      rw [ffLoop_nil]
      exact ⟨⟨hinv.fieldEq, hinv.queue, hinv.vis, hinv.visHiden, hinv.unvisHiden,
        hinv.closure⟩, fun r c h => h, fun p hp => absurd hp (List.not_mem_nil p)⟩
    | cons sec rest =>
      obtain ⟨hsecg, hsecz, hsecr⟩ := hinv.queue sec (List.mem_cons_self _ _)
      have hz : s.field sec.2 sec.1 = Cell.digit 0 := by
        rw [hinv.fieldEq]; exact hsecz
      rw [ffLoop_cons, if_pos hz]
      set s2 : GameState := ffHead s sec with hs2
      set l : List (Nat × Nat) := nbrList W H sec.1 sec.2 with hldef
      have hfe : (ffExpand s2 l).1.field = f := by
        rw [(ffExpand_meta l s2).field_eq]
        exact hinv.fieldEq
      have hs2vis_src : ∀ r c, s2.visited r c = true →
          (r = sec.2 ∧ c = sec.1) ∨ s.visited r c = true :=
        fun r c h => setVisited_true_src s.visited sec.2 sec.1 r c h
      have hinv' : FFInv W H f seed h0 (rest ++ (ffExpand s2 l).2) (ffExpand s2 l).1 := by
        refine ⟨hfe, ?_, ?_, ?_, ?_, ?_⟩
        · intro p hp
          rcases List.mem_append.mp hp with hp | hp
          · exact hinv.queue p (List.mem_cons_of_mem _ hp)
          · obtain ⟨hmem, hf0, _, _⟩ := ffExpand_queue_src l s2 p hp
            have hadj : adjB W H sec p := hmem
            have hf0' : f p.2 p.1 = Cell.digit 0 := by
              rw [← hinv.fieldEq]; exact hf0
            exact ⟨adjB_inGrid hadj, hf0',
              Relation.ReflTransGen.tail hsecr ⟨hadj, hf0'⟩⟩
        · intro r c hv
          rcases ffExpand_visited_src l s2 r c hv with hv2 | hmem
          · rcases hs2vis_src r c hv2 with ⟨h1, h2⟩ | hvs
            · subst h1; subst h2
              exact ⟨hsecg, Or.inl hsecr⟩
            · exact hinv.vis r c hvs
          · have hadj : adjB W H sec (c, r) := hmem
            refine ⟨adjB_inGrid hadj, ?_⟩
            by_cases hf0 : f r c = Cell.digit 0
            · exact Or.inl (Relation.ReflTransGen.tail hsecr ⟨hadj, hf0⟩)
            · exact Or.inr ⟨sec, hsecr, hadj, hf0⟩
        · intro r c hv
          by_cases hv2 : s2.visited r c = true
          · have hh : (ffExpand s2 l).1.hiden r c = s2.hiden r c :=
              ffExpand_hiden_untouched l s2 r c (Or.inr hv2)
            rw [hh]
            by_cases hrc : r = sec.2 ∧ c = sec.1
            · obtain ⟨h1, h2⟩ := hrc
              subst h1; subst h2
              show update2 s.hiden sec.2 sec.1 (s.field sec.2 sec.1) sec.2 sec.1
                = f sec.2 sec.1
              rw [update2_self, hinv.fieldEq]
            · rcases hs2vis_src r c hv2 with hrc' | hvs
              · exact absurd hrc' hrc
              · show update2 s.hiden sec.2 sec.1 (s.field sec.2 sec.1) r c = f r c
                rw [update2_ne _ _ _ _ hrc]
                exact hinv.visHiden r c hvs
          · have hv2f : s2.visited r c = false := bool_not_true hv2
            have hnew := ffExpand_new_hiden l s2 r c hv hv2f
            rw [hnew]
            show s.field r c = f r c
            rw [hinv.fieldEq]
        · intro r c hv
          have hv2 : s2.visited r c = false := by
            by_cases h : s2.visited r c = true
            · have := ffExpand_visited_mono l s2 r c h
              rw [hv] at this
              exact absurd this (by simp)
            · exact bool_not_true h
          have hsv : s.visited r c = false := setVisited_false_src _ _ _ _ _ hv2
          have hnotl : (r, c) ∉ l := by
            intro hm
            have hall := ffExpand_visits_all l s2 (r, c) hm
            exact absurd (show (ffExpand s2 l).1.visited r c = true from hall)
              (by simp [hv])
          have hh : (ffExpand s2 l).1.hiden r c = s2.hiden r c :=
            ffExpand_hiden_untouched l s2 r c (Or.inl hnotl)
          rw [hh]
          have hrc : ¬(r = sec.2 ∧ c = sec.1) := by
            rintro ⟨h1, h2⟩
            subst h1; subst h2
            have hself : setVisited s.visited sec.2 sec.1 sec.2 sec.1 = false := hv2
            rw [setVisited_self] at hself
            exact absurd hself (by simp)
          show update2 s.hiden sec.2 sec.1 (s.field sec.2 sec.1) r c = h0 r c
          rw [update2_ne _ _ _ _ hrc]
          exact hinv.unvisHiden r c hsv
        · intro r c hv hf0
          by_cases hs2v : s2.visited r c = true
          · rcases hs2vis_src r c hs2v with ⟨h1, h2⟩ | hvs
            · subst h1; subst h2
              right
              intro p hp
              exact ffExpand_visits_all l s2 p hp
            · rcases hinv.closure r c hvs hf0 with hqm | hnb
              · rcases List.mem_cons.mp hqm with hqe | hqr
                · subst hqe
                  right
                  intro p hp
                  exact ffExpand_visits_all l s2 p hp
                · exact Or.inl (List.mem_append.mpr (Or.inl hqr))
              · right
                intro p hp
                exact ffExpand_visited_mono l s2 p.1 p.2
                  (setVisited_mono _ _ _ (hnb p hp))
          · have hs2f : s2.visited r c = false := bool_not_true hs2v
            have hf0' : s2.field r c = Cell.digit 0 := by
              show s.field r c = Cell.digit 0
              rw [hinv.fieldEq]
              exact hf0
            exact Or.inl (List.mem_append.mpr
              (Or.inr (ffExpand_zero_enqueued l s2 r c hv hs2f hf0')))
      have hbound : (rest ++ (ffExpand s2 l).2).length
          + unvisCntM W H (ffExpand s2 l).1.visited ≤ fuel := by
        have hE9 := ffExpand_queue_bound W H l s2 nbrList_inb
        rw [List.length_append]
        have hfl : rest.length + 1 + unvisCntM W H s.visited ≤ fuel + 1 := by
          have : (sec :: rest).length = rest.length + 1 := List.length_cons sec rest
          omega
        have hs2u : unvisCntM W H s2.visited
            = unvisCntM W H (setVisited s.visited sec.2 sec.1) := rfl
        by_cases hsv : s.visited sec.2 sec.1 = true
        · have hcv : unvisCntM W H (setVisited s.visited sec.2 sec.1)
              = unvisCntM W H s.visited :=
            unvisCntM_congr W H (fun r c => setVisited_already s.visited hsv r c)
          omega
        · have hmk := cnt_mark_fresh W H s.visited hsecg.2 hsecg.1 (bool_not_true hsv)
          have hmk2 := hmk.2
          omega
      obtain ⟨hres_inv, hres_mono, hres_q⟩ :=
        ih (rest ++ (ffExpand s2 l).2) (ffExpand s2 l).1 hinv' hbound
      refine ⟨hres_inv, ?_, ?_⟩
      · intro r c hvs
        exact hres_mono r c (ffExpand_visited_mono l s2 r c (setVisited_mono _ _ _ hvs))
      · intro p hp
        rcases List.mem_cons.mp hp with hpe | hpr
        · subst hpe
          exact hres_mono p.2 p.1
            (ffExpand_visited_mono l s2 p.2 p.1 (setVisited_self _ _ _))
        · exact hres_q p (List.mem_append.mpr (Or.inl hpr))

/-- Full characterisation of one `floodfill` invocation from a fresh visited
matrix on a zero seed: the visited set is exactly the seed's connected
zero-region plus its non-zero border, exactly those tiles are revealed with
their ground-truth values (none of them a mine), everything else — overlay
included — is untouched, the non-grid state components are preserved, and
`pressed` grows by one per visited tile except the seed. -/
theorem floodfill_fresh_spec (W H : Nat) (s : GameState) (x y : Nat)
    (hx : x < W) (hy : y < H) (hwf : wfField W H s.field)
    (hfresh : ∀ r c, s.visited r c = false)
    (hzero : s.field y x = Cell.digit 0) :
    (∀ t : Nat × Nat, inRB W H s.field (x, y) t →
        (floodfill W H x y s).visited t.2 t.1 = true ∧
        (floodfill W H x y s).hiden t.2 t.1 = s.field t.2 t.1 ∧
        s.field t.2 t.1 ≠ Cell.mineC) ∧
    (∀ t : Nat × Nat, ¬ inRB W H s.field (x, y) t →
        (floodfill W H x y s).visited t.2 t.1 = false ∧
        (floodfill W H x y s).hiden t.2 t.1 = s.hiden t.2 t.1) ∧
    MetaEq (floodfill W H x y s) s ∧
    (floodfill W H x y s).pressed + 1 =
      s.pressed + visCntM W H (floodfill W H x y s).visited := by
  have hseedin : inGridP W H (x, y) := ⟨hx, hy⟩
  have hinv0 : FFInv W H s.field (x, y) s.hiden [(x, y)] s := by
    refine ⟨rfl, ?_, ?_, ?_, ?_, ?_⟩
    · intro p hp
      have hpe := List.mem_singleton.mp hp
      subst hpe
      exact ⟨hseedin, hzero, Relation.ReflTransGen.refl⟩
    · intro r c hv
      rw [hfresh r c] at hv
      exact absurd hv (by simp)
    · intro r c hv
      rw [hfresh r c] at hv
      exact absurd hv (by simp)
    · intro r c _; rfl
    · intro r c hv
      rw [hfresh r c] at hv
      exact absurd hv (by simp)
  have hfuel : ([(x, y)] : List (Nat × Nat)).length + unvisCntM W H s.visited
      ≤ W * H + 1 := by
    have := unvisCntM_le_grid W H s.visited
    simp only [List.length_singleton]
    omega
  obtain ⟨hinvF, hmono, hqv⟩ :=
    ffLoop_main W H s.field (x, y) s.hiden (W * H + 1) [(x, y)] s hinv0 hfuel
  have hseedvis : (ffLoop W H (W * H + 1) [(x, y)] s).visited y x = true :=
    hqv (x, y) (List.mem_singleton.mpr rfl)
  have hreg : ∀ t, zreach W H s.field (x, y) t →
      (ffLoop W H (W * H + 1) [(x, y)] s).visited t.2 t.1 = true := by
    intro t ht
    induction ht with
    | refl => exact hseedvis
    | tail hab hbc ih =>
      have hb0 := zreach_zero hzero hab
      rcases hinvF.closure _ _ ih hb0 with hqm | hnb
      · exact absurd hqm (List.not_mem_nil _)
      · exact hnb _ hbc.1
  have hRB : ∀ t, inRB W H s.field (x, y) t →
      (ffLoop W H (W * H + 1) [(x, y)] s).visited t.2 t.1 = true := by
    intro t ht
    rcases ht with ht | ⟨z, hzr, hadj, _⟩
    · exact hreg t ht
    · have hzvis := hreg z hzr
      have hz0 : s.field z.2 z.1 = Cell.digit 0 := zreach_zero hzero hzr
      rcases hinvF.closure z.2 z.1 hzvis hz0 with hqm | hnb
      · exact absurd hqm (List.not_mem_nil _)
      · exact hnb _ hadj
  refine ⟨?_, ?_, floodfill_meta W H x y s, ?_⟩
  · intro t ht
    have hv := hRB t ht
    exact ⟨hv, hinvF.visHiden t.2 t.1 hv, inRB_not_mine hwf hseedin hzero ht⟩
  · intro t ht
    have hv : (floodfill W H x y s).visited t.2 t.1 = false := by
      by_cases h : (floodfill W H x y s).visited t.2 t.1 = true
      · exact absurd (hinvF.vis t.2 t.1 h).2 ht
      · exact bool_not_true h
    exact ⟨hv, hinvF.unvisHiden t.2 t.1 hv⟩
  · show (ffLoop W H (W * H + 1) [(x, y)] s).pressed + 1 =
      s.pressed + visCntM W H (ffLoop W H (W * H + 1) [(x, y)] s).visited
    rw [ffLoop_cons, if_pos hzero]
    show (ffLoop W H (W * H)
        (([] : List (Nat × Nat)) ++ (ffExpand (ffHead s (x, y)) (nbrList W H x y)).2)
        (ffExpand (ffHead s (x, y)) (nbrList W H x y)).1).pressed + 1 =
      s.pressed + visCntM W H (ffLoop W H (W * H)
        (([] : List (Nat × Nat)) ++ (ffExpand (ffHead s (x, y)) (nbrList W H x y)).2)
        (ffExpand (ffHead s (x, y)) (nbrList W H x y)).1).visited
    have hqv2 : ∀ p ∈ ([] : List (Nat × Nat)) ++
        (ffExpand (ffHead s (x, y)) (nbrList W H x y)).2,
        (ffExpand (ffHead s (x, y)) (nbrList W H x y)).1.visited p.2 p.1 = true := by
      intro p hp
      rcases List.mem_append.mp hp with hp | hp
      · exact absurd hp (List.not_mem_nil p)
      · exact (ffExpand_queue_src _ _ p hp).2.2.1
    have hloopP := ffLoop_pressed W H (W * H)
      (([] : List (Nat × Nat)) ++ (ffExpand (ffHead s (x, y)) (nbrList W H x y)).2)
      (ffExpand (ffHead s (x, y)) (nbrList W H x y)).1 hqv2
    have hE8 := ffExpand_pressed W H (nbrList W H x y) (ffHead s (x, y)) nbrList_inb
    have hhead1 : visCntM W H (ffHead s (x, y)).visited = 1 := by
      have hmk := cnt_mark_fresh W H s.visited hy hx (hfresh y x)
      have h0 : visCntM W H s.visited = 0 := visCntM_allfalse W H s.visited hfresh
      have heq : visCntM W H (ffHead s (x, y)).visited
          = visCntM W H (setVisited s.visited y x) := rfl
      omega
    have hps : (ffHead s (x, y)).pressed = s.pressed := rfl
    rw [hhead1, hps] at hE8
    omega

/-! ### Claim theorems: C4 -/

/-- C4: revealing a zero-valued tile of a well-formed board (visited matrix
fresh, as at the first reveal of a game — the per-invocation semantics of
the spec's transient visited set) flood-fills exactly the maximal connected
zero-region of that tile (connectivity through the clipped neighbourhood
box) plus every non-zero tile bordering the region: all those tiles show
their ground-truth values, none of them is a mine, and every other tile's
overlay — and the ground-truth grid itself — is unchanged. -/
theorem c4_flood_zero_closure (W H : Nat) (s : GameState) (x y : Nat)
    (hx : x < W) (hy : y < H) (hwf : wfField W H s.field)
    (hfresh : ∀ r c, s.visited r c = false)
    (hzero : s.field y x = Cell.digit 0) :
    (∀ t : Nat × Nat, inRB W H s.field (x, y) t →
        (floodfill W H x y s).hiden t.2 t.1 = s.field t.2 t.1 ∧
        s.field t.2 t.1 ≠ Cell.mineC) ∧
    (∀ t : Nat × Nat, ¬ inRB W H s.field (x, y) t →
        (floodfill W H x y s).hiden t.2 t.1 = s.hiden t.2 t.1) ∧
    (floodfill W H x y s).field = s.field := by
  obtain ⟨h1, h2, hmeta, _⟩ := floodfill_fresh_spec W H s x y hx hy hwf hfresh hzero
  exact ⟨fun t ht => ⟨(h1 t ht).2.1, (h1 t ht).2.2⟩,
    fun t ht => (h2 t ht).2, hmeta.field_eq⟩

theorem c4_witness :
    (0 : Nat) < 3 ∧ (0 : Nat) < 3 ∧ wfField 3 3 freshZeroState.field ∧
    (∀ r c, freshZeroState.visited r c = false) ∧
    freshZeroState.field 0 0 = Cell.digit 0 ∧
    ((∀ t : Nat × Nat, inRB 3 3 freshZeroState.field (0, 0) t →
        (floodfill 3 3 0 0 freshZeroState).hiden t.2 t.1 = freshZeroState.field t.2 t.1 ∧
        freshZeroState.field t.2 t.1 ≠ Cell.mineC) ∧
     (∀ t : Nat × Nat, ¬ inRB 3 3 freshZeroState.field (0, 0) t →
        (floodfill 3 3 0 0 freshZeroState).hiden t.2 t.1 = freshZeroState.hiden t.2 t.1) ∧
     (floodfill 3 3 0 0 freshZeroState).field = freshZeroState.field) :=
  ⟨by decide, by decide, by decide, fun r c => rfl, by decide,
    c4_flood_zero_closure 3 3 freshZeroState 0 0 (by decide) (by decide) (by decide)
      (fun r c => rfl) (by decide)⟩

/-! ### Claim theorems: C10 -/

/-- C10: during a flood fill (fresh visited matrix, zero seed, well-formed
board), a flagged tile adjacent to a tile of the traversed zero-region is
overwritten to revealed: its overlay becomes the ground-truth value, which
is neither a flag nor a mine; the correctly-flagged-mine counter is left
unchanged; and the opened-tile counter is incremented once per visited
(revealed) tile other than the seed — the formerly flagged tile among
them. -/
theorem c10_flood_reveals_adjacent_flags (W H : Nat) (s : GameState) (x y : Nat)
    (hx : x < W) (hy : y < H) (hwf : wfField W H s.field)
    (hfresh : ∀ r c, s.visited r c = false)
    (hzero : s.field y x = Cell.digit 0)
    (t : Nat × Nat) (hflag : s.hiden t.2 t.1 = Cell.flagC)
    (hadj : ∃ z, zreach W H s.field (x, y) z ∧ adjB W H z t) :
    (floodfill W H x y s).hiden t.2 t.1 = s.field t.2 t.1 ∧
    (floodfill W H x y s).hiden t.2 t.1 ≠ s.hiden t.2 t.1 ∧
    s.field t.2 t.1 ≠ Cell.flagC ∧
    s.field t.2 t.1 ≠ Cell.mineC ∧
    (floodfill W H x y s).flag = s.flag ∧
    (floodfill W H x y s).pressed + 1 =
      s.pressed + visCntM W H (floodfill W H x y s).visited := by
  obtain ⟨z, hzr, hzadj⟩ := hadj
  have htRB : inRB W H s.field (x, y) t := by
    by_cases hf0 : s.field t.2 t.1 = Cell.digit 0
    · exact Or.inl (Relation.ReflTransGen.tail hzr ⟨hzadj, hf0⟩)
    · exact Or.inr ⟨z, hzr, hzadj, hf0⟩
  obtain ⟨h1, _, hmeta, hpress⟩ := floodfill_fresh_spec W H s x y hx hy hwf hfresh hzero
  obtain ⟨_, hhid, hnm⟩ := h1 t htRB
  have hnf : s.field t.2 t.1 ≠ Cell.flagC := by
    intro hcon
    have hin := adjB_inGrid hzadj
    have hval := hwf t.2 hin.2 t.1 hin.1 (by rw [hcon]; simp)
    rw [hcon] at hval
    exact absurd hval (by simp)
  refine ⟨hhid, ?_, hnf, hnm, hmeta.flag_eq, hpress⟩
  rw [hhid, hflag]
  exact hnf

theorem c10_witness :
    (0 : Nat) < 3 ∧ (0 : Nat) < 3 ∧ wfField 3 3 flagTrace.field ∧
    (∀ r c, flagTrace.visited r c = false) ∧
    flagTrace.field 0 0 = Cell.digit 0 ∧
    flagTrace.hiden (1, 1).2 (1, 1).1 = Cell.flagC ∧
    ((floodfill 3 3 0 0 flagTrace).hiden (1, 1).2 (1, 1).1
        = flagTrace.field (1, 1).2 (1, 1).1 ∧
      (floodfill 3 3 0 0 flagTrace).hiden (1, 1).2 (1, 1).1
        ≠ flagTrace.hiden (1, 1).2 (1, 1).1 ∧
      flagTrace.field (1, 1).2 (1, 1).1 ≠ Cell.flagC ∧
      flagTrace.field (1, 1).2 (1, 1).1 ≠ Cell.mineC ∧
      (floodfill 3 3 0 0 flagTrace).flag = flagTrace.flag ∧
      (floodfill 3 3 0 0 flagTrace).pressed + 1 =
        flagTrace.pressed + visCntM 3 3 (floodfill 3 3 0 0 flagTrace).visited) :=
  ⟨by decide, by decide, by decide, fun r c => rfl, by decide, by decide,
    c10_flood_reveals_adjacent_flags 3 3 flagTrace 0 0 (by decide) (by decide)
      (by decide) (fun r c => rfl) (by decide) (1, 1) (by decide)
      ⟨(0, 0), Relation.ReflTransGen.refl, by decide⟩⟩

end Minesweeper
